import Mathlib

/-!
# Verification of the `tt-build` JSON normalization core

This file embeds the normalization engine of `src/tt_build/cli.py`
(`optimize_json`) as executable Lean definitions and proves properties of
the embedding.  The pipeline, per the source:

1. per input line: strip trailing `//` comments outside string literals
   (only attempted when the substring `//` occurs in the line);
2. per line: a regex substitution quoting bare values
   (`("[^"]*"\s*:\s*)([^"\[{\s][^,}\]"]*[a-zA-Z][^,}\]"\s]*)(\s*[,}])` →
   `\1"\2"\3`);
3. per line: fixed character replacements (BOM removal, `;`→`,`, tab→space,
   `\r` removal, `\n`→space, a space→space no-op, NBSP removal — plain
   spaces survive cleaning);
4. on the concatenation: bracket-depth truncation with a quote-only string
   toggle;
5. `json.loads` of the truncated text;
6. per decoded object: legacy-field postprocessing (`privileged` aborts,
   `strict lua` removed, `script`/`scripts` forces `mute lua = true`);
7. `json.dumps(data, ensure_ascii=False)` of the result.

Lines are modelled as already UTF-8–decoded `List Char` (the UTF-8 byte
decoding step and its `DecodeError` are outside the properties treated
here).  Python floats, `NaN`/`Infinity` literals and lone-surrogate `\u`
escapes are not modelled: the number parser accepts only the integer
grammar and `\u` escapes outside the surrogate range (no claim below
depends on these corners).
-/

/-- The character set matched by Python's regex `\s` on `str` patterns
(ASCII whitespace, the C1 information separators, NEL, NBSP and the
Unicode space characters). -/
def pyWs (c : Char) : Bool :=
  c = ' ' ∨ c = '\t' ∨ c = '\n' ∨ c = '\r' ∨ c = '\x0b' ∨ c = '\x0c' ∨
  c = '\x1c' ∨ c = '\x1d' ∨ c = '\x1e' ∨ c = '\x1f' ∨ c = '\u0085' ∨
  c = '\u00a0' ∨ c = '\u1680' ∨ ('\u2000' ≤ c ∧ c ≤ '\u200a') ∨
  c = '\u2028' ∨ c = '\u2029' ∨ c = '\u202f' ∨ c = '\u205f' ∨ c = '\u3000'

/-- Membership in the regex class `[a-zA-Z]` of the bare-value regex. -/
def isAlphaAZ (c : Char) : Bool :=
  ('a' ≤ c ∧ c ≤ 'z') ∨ ('A' ≤ c ∧ c ≤ 'Z')

/-! ## Stage 1: comment stripping (`if "//" in line: ...` scanner) -/

/-- Python's `"//" in line` membership test. -/
def hasDoubleSlash : List Char → Bool
  | [] => false
  | c :: rest =>
    if c = '/' ∧ rest.head? = some '/' then true else hasDoubleSlash rest

/-- The comment-stripping scanner of `optimize_json`, faithful to the
source: while `in_str`, a backslash merely `continue`s (the following
character is processed normally on the next iteration), a quote leaves the
string; outside a string a quote enters it and `/` followed by `/`
truncates the line at that position. -/
def stripCommentAux : List Char → Bool → List Char
  | [], _ => []
  | c :: rest, inStr =>
    if inStr then
      if c = '\\' then c :: stripCommentAux rest true
      else if c = '"' then c :: stripCommentAux rest false
      else c :: stripCommentAux rest true
    else
      if c = '"' then c :: stripCommentAux rest true
      else if c = '/' ∧ rest.head? = some '/' then []
      else c :: stripCommentAux rest false

/-- Stage 1 on one line, including the `"//" in line` guard of the source. -/
def stripComment (l : List Char) : List Char :=
  if hasDoubleSlash l then stripCommentAux l false else l

/-- The comment scanner with the (dead) backslash branch removed. -/
def stripCommentNoBS : List Char → Bool → List Char
  | [], _ => []
  | c :: rest, inStr =>
    if inStr then
      if c = '"' then c :: stripCommentNoBS rest false
      else c :: stripCommentNoBS rest true
    else
      if c = '"' then c :: stripCommentNoBS rest true
      else if c = '/' ∧ rest.head? = some '/' then []
      else c :: stripCommentNoBS rest false

/-- The comment scanner as the specification describes it: while inside a
string, a backslash causes the immediately following character to be
skipped without interpretation. -/
def stripCommentSkip : List Char → Bool → List Char
  | [], _ => []
  | c :: rest, inStr =>
    if inStr then
      if c = '\\' then
        match rest with
        | [] => [c]
        | c' :: rest' => c :: c' :: stripCommentSkip rest' true
      else if c = '"' then c :: stripCommentSkip rest false
      else c :: stripCommentSkip rest true
    else
      if c = '"' then c :: stripCommentSkip rest true
      else if c = '/' ∧ rest.head? = some '/' then []
      else c :: stripCommentSkip rest false

/-! ## Stage 3: fixed character replacements, in source order -/

/-- The character replacements applied after the regex, in this exact
order: remove U+FEFF, `;`→`,`, tab→space, remove `\r`, `\n`→space,
space→space (the source replaces a plain space by a plain space — a
no-op, embedded verbatim), remove U+00A0. -/
def applyReplacements (l : List Char) : List Char :=
  let l1 := l.filter (fun c => ¬ c = '\ufeff')
  let l2 := l1.map (fun c => if c = ';' then ',' else c)
  let l3 := l2.map (fun c => if c = '\t' then ' ' else c)
  let l4 := l3.filter (fun c => ¬ c = '\r')
  let l5 := l4.map (fun c => if c = '\n' then ' ' else c)
  let l6 := l5.map (fun c => if c = ' ' then ' ' else c)
  l6.filter (fun c => ¬ c = '\u00a0')

/-! ## Stage 4: bracket-depth truncation -/

/-- The truncation scanner of `optimize_json`: a quote-only string toggle,
`[` increments and `]` decrements a signed counter outside strings; when a
`]` takes the counter from 1 to 0 the text is truncated inclusively there. -/
def truncateAux : List Char → Bool → Int → List Char
  | [], _, _ => []
  | c :: rest, inStr, stack =>
    if inStr then
      if c = '"' then c :: truncateAux rest false stack
      else c :: truncateAux rest true stack
    else
      if c = '"' then c :: truncateAux rest true stack
      else if c = '[' then c :: truncateAux rest false (stack + 1)
      else if c = ']' then
        if stack - 1 = 0 then [c] else c :: truncateAux rest false (stack - 1)
      else c :: truncateAux rest false stack

/-- Bracket-depth truncation of the concatenated cleaned text. -/
def truncateTopArray (l : List Char) : List Char :=
  truncateAux l false 0

/-- One step of the truncation scanner's state `(inString, depth)`,
independent of the truncation itself. -/
def truncStep : Bool × Int → Char → Bool × Int
  | (true, d), c => if c = '"' then (false, d) else (true, d)
  | (false, d), c =>
    if c = '"' then (true, d)
    else if c = '[' then (false, d + 1)
    else if c = ']' then (false, d - 1)
    else (false, d)

/-- Scanner state after processing the first `i` characters of `t`. -/
def truncStateAt (t : List Char) (i : Nat) : Bool × Int :=
  (t.take i).foldl truncStep (false, 0)

/-- Index `i` is a truncation point: a `]` outside a string at which the depth
counter, positive (equal to 1) just before, returns to zero. -/
def isStopAt (t : List Char) (i : Nat) : Bool :=
  if h : i < t.length then
    t.get ⟨i, h⟩ = ']' ∧ (truncStateAt t i).1 = false ∧ (truncStateAt t i).2 = 1
  else false

/-- The first truncation point of `t`, computed by an independent scan. -/
def stopIndexAux : List Char → Bool × Int → Option Nat
  | [], _ => none
  | c :: rest, st =>
    if st.1 = false ∧ c = ']' ∧ st.2 = 1 then some 0
    else (stopIndexAux rest (truncStep st c)).map (· + 1)

/-- The first index at which the depth counter returns to zero from a
positive value at a `]` outside a string, if any. -/
def stopIndex (t : List Char) : Option Nat :=
  stopIndexAux t (false, 0)

/-! ## Stage 2: the bare-value quoting regex

The substitution
`re.sub(r'("[^"]*"\s*:\s*)([^"\[{\s][^,}\]"]*[a-zA-Z][^,}\]"\s]*)(\s*[,}])', r'\1"\2"\3', line)`
is embedded as a backtracking matcher specialised to this pattern.  All
pieces of group 1 are deterministic (each starred class is disjoint from
the character that must follow it); inside group 2 the engine must choose
how much `[^,}\]"]*` consumes, greedily preferring the longest prefix, and
the remainder `[a-zA-Z][^,}\]"\s]*\s*[,}]` is again deterministic. -/

/-- Membership in the regex class `[^,}\]"]` (the star after group 2's
first character). -/
def inA (c : Char) : Bool :=
  ¬ (c = ',' ∨ c = '}' ∨ c = ']' ∨ c = '"')

/-- Membership in the regex class `[^,}\]"\s]` (the star after the
mandatory letter). -/
def inB (c : Char) : Bool :=
  inA c ∧ ¬ pyWs c

/-- Membership in the regex class `[^"\[{\s]` (group 2's first character). -/
def isC0 (c : Char) : Bool :=
  ¬ (c = '"' ∨ c = '[' ∨ c = '{' ∨ pyWs c)

/-- Match `[^,}\]"\s]*\s*[,}]` at `s`; returns the `[^,}\]"\s]*` part
(which belongs to group 2), group 3 (`\s*[,}]`), and the rest. -/
def matchTail (s : List Char) : Option (List Char × List Char × List Char) :=
  let b := s.takeWhile inB
  let s1 := s.dropWhile inB
  let w := s1.takeWhile pyWs
  match s1.dropWhile pyWs with
  | c :: rest => if c = ',' ∨ c = '}' then some (b, w ++ [c], rest) else none
  | [] => none

/-- Attempt the tail of group 2 with exactly `k` characters consumed by
`[^,}\]"]*`: the next character must be a letter, then `matchTail`.
Returns (group 2, group 3, rest). -/
def attemptAt (c0 : Char) (r : List Char) (k : Nat) :
    Option (List Char × List Char × List Char) :=
  if (r.take k).all inA then
    match r.drop k with
    | a :: s =>
      if isAlphaAZ a then
        match matchTail s with
        | some (b, g3, rest) => some (c0 :: r.take k ++ a :: b, g3, rest)
        | none => none
      else none
    | [] => none
  else none

/-- Greedy backtracking over the length consumed by `[^,}\]"]*`: try `k`
first, then `k - 1`, … down to `0`. -/
def tryK (c0 : Char) (r : List Char) : Nat → Option (List Char × List Char × List Char)
  | 0 => attemptAt c0 r 0
  | k + 1 =>
    match attemptAt c0 r (k + 1) with
    | some res => some res
    | none => tryK c0 r k

/-- Match groups 2 and 3 of the pattern at `s`. -/
def matchG2G3 (s : List Char) : Option (List Char × List Char × List Char) :=
  match s with
  | [] => none
  | c0 :: r => if isC0 c0 then tryK c0 r (r.takeWhile inA).length else none

/-- Negation of being the double-quote character (the class `[^"]`). -/
def notQuote (c : Char) : Bool :=
  ¬ c = '"'

/-- Match group 1 (`"[^"]*"\s*:\s*`) at `s`; returns (group 1, rest).
Each piece is forced: `[^"]*` runs to the next quote, each `\s*` runs to
the next non-whitespace character. -/
def matchG1 (s : List Char) : Option (List Char × List Char) :=
  match s with
  | [] => none
  | c :: r =>
    if c = '"' then
      let k := r.takeWhile notQuote
      match r.dropWhile notQuote with
      | [] => none
      | c2 :: r2 =>
        if c2 = '"' then
          let w1 := r2.takeWhile pyWs
          match r2.dropWhile pyWs with
          | [] => none
          | c3 :: r3 =>
            if c3 = ':' then
              let w2 := r3.takeWhile pyWs
              some ('"' :: k ++ '"' :: w1 ++ ':' :: w2, r3.dropWhile pyWs)
            else none
        else none
    else none

/-- Match the whole pattern at the start of `s`; returns
(group 1, group 2, group 3, rest). -/
def matchAt (s : List Char) : Option (List Char × List Char × List Char × List Char) :=
  match matchG1 s with
  | some (g1, r) =>
    match matchG2G3 r with
    | some (g2, g3, rest) => some (g1, g2, g3, rest)
    | none => none
  | none => none

/-- Leftmost match of the pattern in `s`: returns
(prefix before the match, group 1, group 2, group 3, rest after the match). -/
def findMatchAux :
    List Char → Option (List Char × List Char × List Char × List Char × List Char)
  | [] => none
  | c :: rest =>
    match matchAt (c :: rest) with
    | some (g1, g2, g3, r) => some ([], g1, g2, g3, r)
    | none =>
      (findMatchAux rest).map (fun x => (c :: x.1, x.2.1, x.2.2.1, x.2.2.2.1, x.2.2.2.2))

/-- Repeated substitution of the leftmost match, continuing after the
replaced portion, as `re.sub` does.  Fuel-driven; each substitution
consumes at least one character, so `s.length` steps always suffice. -/
def subLoop : Nat → List Char → List Char
  | 0, s => s
  | n + 1, s =>
    match findMatchAux s with
    | none => s
    | some (pre, g1, g2, g3, rest) =>
      pre ++ g1 ++ '"' :: g2 ++ '"' :: g3 ++ subLoop n rest

/-- The bare-value quoting substitution applied to one line. -/
def subBareValues (s : List Char) : List Char :=
  subLoop s.length s

/-! ## Stage 5: strict JSON decoding (`json.loads`)

Objects are decoded to association lists in Python `dict` semantics: a
repeated key keeps its first position and takes its last value. -/

/-- JSON values as decoded by `json.loads` (integers only; see the module
comment). -/
inductive JValue where
  | null : JValue
  | bool (b : Bool) : JValue
  | num (n : Int) : JValue
  | str (s : String) : JValue
  | arr (elems : List JValue) : JValue
  | obj (members : List (String × JValue)) : JValue
deriving Repr

/-- JSON whitespace (the only characters `json.loads` skips between
tokens). -/
def jsonWs (c : Char) : Bool :=
  c = ' ' ∨ c = '\t' ∨ c = '\n' ∨ c = '\r'

/-- Skip JSON whitespace. -/
def skipWs (s : List Char) : List Char :=
  s.dropWhile jsonWs

/-- Value of a hexadecimal digit. -/
def hexVal (c : Char) : Option Nat :=
  if '0' ≤ c ∧ c ≤ '9' then some (c.toNat - 48)
  else if 'a' ≤ c ∧ c ≤ 'f' then some (c.toNat - 87)
  else if 'A' ≤ c ∧ c ≤ 'F' then some (c.toNat - 55)
  else none

/-- Decode a JSON string body after the opening quote: escapes
`\" \\ \/ \b \f \n \r \t \uXXXX`, raw control characters rejected (strict
mode), `\u` surrogate halves not modelled. -/
def parseStrAux : List Char → List Char → Option (String × List Char)
  | [], _ => none
  | c :: rest, acc =>
    if c = '"' then some (String.mk acc.reverse, rest)
    else if c = '\\' then
      match rest with
      | [] => none
      | e :: rest' =>
        if e = '"' ∨ e = '\\' ∨ e = '/' then parseStrAux rest' (e :: acc)
        else if e = 'b' then parseStrAux rest' ('\x08' :: acc)
        else if e = 'f' then parseStrAux rest' ('\x0c' :: acc)
        else if e = 'n' then parseStrAux rest' ('\n' :: acc)
        else if e = 'r' then parseStrAux rest' ('\r' :: acc)
        else if e = 't' then parseStrAux rest' ('\t' :: acc)
        else if e = 'u' then
          match rest' with
          | h1 :: h2 :: h3 :: h4 :: rest2 =>
            match hexVal h1, hexVal h2, hexVal h3, hexVal h4 with
            | some a, some b, some c', some d =>
              let n := ((a * 16 + b) * 16 + c') * 16 + d
              if 0xd800 ≤ n ∧ n < 0xe000 then none
              else parseStrAux rest2 (Char.ofNat n :: acc)
            | _, _, _, _ => none
          | _ => none
        else none
    else if c.toNat < 0x20 then none
    else parseStrAux rest (c :: acc)

/-- Decimal digit test. -/
def isDigitC (c : Char) : Bool :=
  '0' ≤ c ∧ c ≤ '9'

/-- Decode a JSON unsigned integer: `0` alone, or a nonzero digit followed
by digits. -/
def parseNat (s : List Char) : Option (Nat × List Char) :=
  match s with
  | c :: rest =>
    if c = '0' then some (0, rest)
    else if isDigitC c then
      some ((c :: rest.takeWhile isDigitC).foldl
              (fun acc d => acc * 10 + (d.toNat - 48)) 0,
            rest.dropWhile isDigitC)
    else none
  | [] => none

/-- Guard after an integer literal: a following `.`, `e` or `E` would
start an unmodelled float literal and is rejected. -/
def numTail (x : Int) (r : List Char) : Option (Int × List Char) :=
  if r.head?.any (fun c => c = '.' ∨ c = 'e' ∨ c = 'E') then none else some (x, r)

/-- Decode a JSON number (integer grammar; a following `.`, `e` or `E`
would start an unmodelled float literal and is rejected). -/
def parseNum (s : List Char) : Option (Int × List Char) :=
  match s with
  | [] => none
  | c :: r =>
    if c = '-' then (parseNat r).bind fun p => numTail (-(p.1 : Int)) p.2
    else (parseNat (c :: r)).bind fun p => numTail (p.1 : Int) p.2

/-- Python `dict` insertion on an association list: a present key keeps
its position and takes the new value, a fresh key is appended. -/
def dictSet (k : String) (v : JValue) : List (String × JValue) → List (String × JValue)
  | [] => [(k, v)]
  | (k', v') :: rest => if k' = k then (k, v) :: rest else (k', v') :: dictSet k v rest

/-- Parser modes: a value, the element loop of an array (after `[` or a
comma), the member loop of an object (after `{` or a comma). -/
inductive PMode where
  | val : PMode
  | arrLoop (acc : List JValue) : PMode
  | objLoop (acc : List (String × JValue)) : PMode

/-- The recursive-descent JSON parser, fuelled.  Fuel is spent on each
nesting or loop step; between any two expenditures at least one character
of input is consumed, so `2 * length + 2` fuel always suffices. -/
def parseP : Nat → PMode → List Char → Option (JValue × List Char)
  | 0, _, _ => none
  | n + 1, .val, s =>
    match skipWs s with
    | [] => none
    | c :: r =>
      if c = '"' then (parseStrAux r []).map (fun p => (.str p.1, p.2))
      else if c = '[' then parseP n (.arrLoop []) r
      else if c = '{' then parseP n (.objLoop []) r
      else if c = 't' then
        if r.take 3 = ['r', 'u', 'e'] then some (.bool true, r.drop 3) else none
      else if c = 'f' then
        if r.take 4 = ['a', 'l', 's', 'e'] then some (.bool false, r.drop 4) else none
      else if c = 'n' then
        if r.take 3 = ['u', 'l', 'l'] then some (.null, r.drop 3) else none
      else (parseNum (c :: r)).map (fun p => (.num p.1, p.2))
  | n + 1, .arrLoop acc, s =>
    match skipWs s with
    | [] => none
    | c :: r =>
      if c = ']' then (if acc.isEmpty then some (.arr [], r) else none)
      else
        match parseP n .val (c :: r) with
        | some (v, r1) =>
          (match skipWs r1 with
           | [] => none
           | c2 :: r2 =>
             if c2 = ',' then parseP n (.arrLoop (acc ++ [v])) r2
             else if c2 = ']' then some (.arr (acc ++ [v]), r2)
             else none)
        | none => none
  | n + 1, .objLoop acc, s =>
    match skipWs s with
    | [] => none
    | c :: r =>
      if c = '}' then (if acc.isEmpty then some (.obj [], r) else none)
      else if c = '"' then
        match parseStrAux r [] with
        | some (k, r1) =>
          (match skipWs r1 with
           | [] => none
           | c2 :: r2 =>
             if c2 = ':' then
               match parseP n .val r2 with
               | some (v, r3) =>
                 (match skipWs r3 with
                  | [] => none
                  | c4 :: r4 =>
                    if c4 = ',' then parseP n (.objLoop (dictSet k v acc)) r4
                    else if c4 = '}' then some (.obj (dictSet k v acc), r4)
                    else none)
               | none => none
             else none)
        | none => none
      else none

/-- `json.loads`: parse one value, allow trailing whitespace, require the
end of input. -/
def loads (s : List Char) : Option JValue :=
  match parseP (2 * s.length + 2) .val s with
  | some (v, r) => if skipWs r = [] then some v else none
  | none => none

/-! ## Stage 7: compact re-encoding (`json.dumps(data, ensure_ascii=False)`) -/

/-- Lowercase hexadecimal digit. -/
def hexDigitChar (n : Nat) : Char :=
  if n < 10 then Char.ofNat (48 + n) else Char.ofNat (87 + n)

/-- Decimal digits of a positive number, most significant first; fuelled
by the number itself, which bounds the digit count. -/
def natReprAux : Nat → Nat → List Char
  | 0, _ => []
  | fuel + 1, n =>
    if n = 0 then [] else natReprAux fuel (n / 10) ++ [Char.ofNat (48 + n % 10)]

/-- Decimal representation of a natural number. -/
def natRepr (n : Nat) : List Char :=
  if n = 0 then ['0'] else natReprAux n n

/-- Python `repr` of an integer. -/
def intRepr (i : Int) : List Char :=
  if i < 0 then '-' :: natRepr i.natAbs else natRepr i.toNat

/-- Escaping of one character inside a dumped string: `"` and `\`
escaped, the named control escapes, `\u00xx` for other control
characters; everything else (in particular every non-ASCII character,
since `ensure_ascii=False`) passes through unchanged. -/
def escChar (c : Char) : List Char :=
  if c = '"' then ['\\', '"']
  else if c = '\\' then ['\\', '\\']
  else if c = '\n' then ['\\', 'n']
  else if c = '\r' then ['\\', 'r']
  else if c = '\t' then ['\\', 't']
  else if c = '\x08' then ['\\', 'b']
  else if c = '\x0c' then ['\\', 'f']
  else if c.toNat < 0x20 then
    ['\\', 'u', '0', '0', hexDigitChar (c.toNat / 16), hexDigitChar (c.toNat % 16)]
  else [c]

/-- Encoding of a dumped string. -/
def encStr (s : List Char) : List Char :=
  '"' :: (s.map escChar).flatten ++ ['"']

mutual

/-- `json.dumps(v, ensure_ascii=False)`: default separators `", "` and
`": "`. -/
def jdump : JValue → List Char
  | .null => "null".data
  | .bool true => "true".data
  | .bool false => "false".data
  | .num i => intRepr i
  | .str s => encStr s.data
  | .arr l => '[' :: jdumpElems l ++ [']']
  | .obj kvs => '{' :: jdumpMembers kvs ++ ['}']

/-- Array elements joined by `", "`. -/
def jdumpElems : List JValue → List Char
  | [] => []
  | [v] => jdump v
  | v :: rest => jdump v ++ ',' :: ' ' :: jdumpElems rest

/-- Object members `"key": value` joined by `", "`. -/
def jdumpMembers : List (String × JValue) → List Char
  | [] => []
  | [(k, v)] => encStr k.data ++ ':' :: ' ' :: jdump v
  | (k, v) :: rest => encStr k.data ++ ':' :: ' ' :: jdump v ++ ',' :: ' ' :: jdumpMembers rest

end

/-! ## Stage 6: legacy-field postprocessing, and the whole pipeline -/

/-- Errors `optimize_json` can raise: a JSON decode failure, a
`TypeError`/`AttributeError` from iterating data that is not a list of
objects, and the explicit exception for a `privileged` key (whose message
interpolates the diagnostic identifier carried here). -/
inductive PyErr where
  | malformed : PyErr
  | typeErr : PyErr
  | privileged (diagId : JValue) : PyErr

/-- Does the object contain the key? (`k in obj_keys`). -/
def hasKey (k : String) (kvs : List (String × JValue)) : Bool :=
  kvs.any (fun p => p.1 = k)

/-- First binding of a key. -/
def lookupKey (k : String) : List (String × JValue) → Option JValue
  | [] => none
  | (k', v) :: rest => if k' = k then some v else lookupKey k rest

/-- Removal of a key (`del arr_obj[k]`). -/
def eraseKey (k : String) (kvs : List (String × JValue)) : List (String × JValue) :=
  kvs.filter (fun p => ¬ p.1 = k)

/-- The diagnostic identifier `arr_obj.get("id", "unknown id")`. -/
def diagnosticId (kvs : List (String × JValue)) : JValue :=
  (lookupKey "id" kvs).getD (.str "unknown id")

/-- Postprocessing of one decoded object, in source order: a `privileged`
key aborts with the diagnostic identifier; otherwise `strict lua` is
removed and, when `script` or `scripts` was present, `mute lua` is set to
`true` (all membership tests against the original key list). -/
def processObj (kvs : List (String × JValue)) :
    Except PyErr (List (String × JValue)) :=
  if hasKey "privileged" kvs then .error (.privileged (diagnosticId kvs))
  else
    let kvs1 := eraseKey "strict lua" kvs
    if hasKey "script" kvs ∨ hasKey "scripts" kvs then
      .ok (dictSet "mute lua" (.bool true) kvs1)
    else .ok kvs1

/-- The `for arr_obj in data:` loop over the elements of a decoded array;
an element that is not an object raises at its turn. -/
def processList : List JValue → Except PyErr (List (List (String × JValue)))
  | [] => .ok []
  | .obj kvs :: rest => do
    let o ← processObj kvs
    let r ← processList rest
    .ok (o :: r)
  | _ :: _ => .error .typeErr

/-- The whole post-decode phase on a decoded value.  A decoded array is
processed element by element; iterating a decoded empty object or empty
string performs no loop iteration and succeeds vacuously (Python iterates
a dict by keys and a string by characters); iterating any other value
raises at its first element or is not iterable at all. -/
def postprocess : JValue → Except PyErr JValue
  | .arr elems => (processList elems).map (fun l => .arr (l.map .obj))
  | .obj [] => .ok (.obj [])
  | .str s => if s.data = [] then .ok (.str s) else .error .typeErr
  | _ => .error .typeErr

/-- The part of `optimize_json` downstream of per-line cleaning: bracket
truncation, strict decoding, postprocessing, re-encoding. -/
def normalizeCleaned (t : List Char) : Except PyErr (List Char) :=
  match loads (truncateTopArray t) with
  | none => .error .malformed
  | some v => (postprocess v).map jdump

/-- Per-line cleaning: comment stripping, bare-value quoting, character
replacements. -/
def cleanLine (l : List Char) : List Char :=
  applyReplacements (subBareValues (stripComment l))

/-- `optimize_json` on the decoded lines of one file. -/
def optimize_json (lines : List (List Char)) : Except PyErr (List Char) :=
  normalizeCleaned ((lines.map cleanLine).flatten)

/-! ## The idempotence class: safe characters, keys and leaf values

An already-strict JSON input passes through normalization untouched (up to
re-encoding) when no pipeline stage can trigger on it.  `safeChar`
excludes everything any stage inspects: whitespace of any dialect sense
(the regex `\s` classes and the replaced tab, newline and NBSP — a
sufficient restriction, not claimed necessary), the structural
characters, `"` and `\\`, `;` (replaced by `,`), `/` (comment guard),
and U+FEFF (stripped). -/

/-- Characters allowed in keys and string values of the idempotence class. -/
def safeChar (c : Char) : Bool :=
  0x20 ≤ c.toNat ∧ ¬ pyWs c ∧
  ¬ (c = '"' ∨ c = '\\' ∨ c = ':' ∨ c = ';' ∨ c = '/' ∨ c = '[' ∨ c = ']' ∨
     c = '{' ∨ c = '}' ∨ c = ',' ∨ c = '\ufeff' ∨ c = '.')

/-- A key of the idempotence class: nonempty, safe characters, and not one
of the legacy keys the postprocessor rewrites. -/
def safeKey (s : String) : Bool :=
  ¬ s.data = [] ∧ s.data.all safeChar ∧
  ¬ (s = "privileged" ∨ s = "strict lua" ∨ s = "script" ∨ s = "scripts")

/-- A leaf value of the idempotence class: a safe string or an integer. -/
def safeLeaf : JValue → Bool
  | .str s => s.data.all safeChar
  | .num _ => true
  | _ => false

/-- An object of the idempotence class. -/
def safeObj (kvs : List (String × JValue)) : Bool :=
  kvs.all (fun p => safeKey p.1 ∧ safeLeaf p.2) ∧ (kvs.map Prod.fst).Nodup

/-- An object list of the idempotence class. -/
def safeList (l : List (List (String × JValue))) : Bool :=
  l.all safeObj

/-- Rendering of a leaf value as strict JSON (safe strings need no
escaping). -/
def renderLeaf : JValue → List Char
  | .str s => '"' :: s.data ++ ['"']
  | .num i => intRepr i
  | _ => []

/-- One `"key":value` pair, with `b` the whitespace emitted after the
colon. -/
def renderPairS (b : List Char) (p : String × JValue) : List Char :=
  '"' :: p.1.data ++ '"' :: ':' :: b ++ renderLeaf p.2

/-- Pairs joined by `,` followed by the whitespace `a`. -/
def renderPairsS (a b : List Char) : List (String × JValue) → List Char
  | [] => []
  | [p] => renderPairS b p
  | p :: rest => renderPairS b p ++ ',' :: a ++ renderPairsS a b rest

/-- One object. -/
def renderObjS (a b : List Char) (kvs : List (String × JValue)) : List Char :=
  '{' :: renderPairsS a b kvs ++ ['}']

/-- Objects joined by `,` followed by the whitespace `a`. -/
def renderObjsS (a b : List Char) : List (List (String × JValue)) → List Char
  | [] => []
  | [kvs] => renderObjS a b kvs
  | kvs :: rest => renderObjS a b kvs ++ ',' :: a ++ renderObjsS a b rest

/-- The whole strict-JSON array text. -/
def renderArrS (a b : List Char) (l : List (List (String × JValue))) : List Char :=
  '[' :: renderObjsS a b l ++ [']']

/-- The compact (whitespace-free) strict-JSON text of an object list: the
canonical already-strict input of the idempotence property. -/
def renderArrC (l : List (List (String × JValue))) : List Char :=
  renderArrS [] [] l

/-- The condition under which the bare-value regex cannot anchor a match
at a quote followed by the text `s`: the first quote of `s` (the candidate
closing quote of the key part), if any, is not followed — after regex
whitespace — by a colon. -/
def fqOk (s : List Char) : Prop :=
  match s.dropWhile notQuote with
  | [] => True
  | _ :: r2 =>
    match r2.dropWhile pyWs with
    | [] => True
    | c3 :: _ => ¬ c3 = ':'

/-- The state walk used to show truncation never fires inside an object
body: scanning `seg` with the quote toggle from state `b` never meets a
square bracket outside a string and ends outside a string. -/
def segOk : List Char → Bool → Bool
  | [], b => ¬ b
  | c :: rest, true => if c = '"' then segOk rest false else segOk rest true
  | c :: rest, false =>
    if c = '"' then segOk rest true
    else if c = '[' ∨ c = ']' then false
    else segOk rest false

/-- The characters that can occur in the compact strict-JSON render. -/
def compactOk (c : Char) : Bool :=
  safeChar c ∨ c = '"' ∨ c = ':' ∨ c = ',' ∨ c = '{' ∨ c = '}' ∨ c = '[' ∨
  c = ']' ∨ isDigitC c ∨ c = '-'

/-- The key list an object has after postprocessing: original key order
with `strict lua` dropped, and `mute lua` appended at the end exactly when
it is newly introduced (a `script`/`scripts` key present, no prior
`mute lua`). -/
def keysAfterPostprocess (kvs : List (String × JValue)) : List String :=
  let ks := (kvs.map Prod.fst).filter (fun k => ¬ k = "strict lua")
  if (hasKey "script" kvs ∨ hasKey "scripts" kvs) ∧ hasKey "mute lua" kvs = false
  then ks ++ ["mute lua"] else ks

/-! ## Association-list lemmas -/

theorem lookupKey_cons (pk : String) (pv : JValue) (rest : List (String × JValue))
    (k : String) :
    lookupKey k ((pk, pv) :: rest) = if pk = k then some pv else lookupKey k rest := rfl

theorem hasKey_cons (pk : String) (pv : JValue) (rest : List (String × JValue))
    (k : String) :
    hasKey k ((pk, pv) :: rest) = (decide (pk = k) || hasKey k rest) := by
  simp [hasKey]

theorem eraseKey_cons (pk : String) (pv : JValue) (rest : List (String × JValue))
    (k : String) :
    eraseKey k ((pk, pv) :: rest) =
      if pk = k then eraseKey k rest else (pk, pv) :: eraseKey k rest := by
  by_cases h : pk = k <;> simp [eraseKey, List.filter_cons, h]

theorem lookupKey_eraseKey_ne (k k' : String) (kvs : List (String × JValue))
    (h : ¬ k = k') : lookupKey k (eraseKey k' kvs) = lookupKey k kvs := by
  induction kvs with
  | nil => rfl
  | cons p rest ih =>
    obtain ⟨pk, pv⟩ := p
    rw [eraseKey_cons]
    by_cases h1 : pk = k'
    · have h2 : ¬ pk = k := fun hh => h (by rw [← hh, h1])
      have h3 : ¬ k' = k := fun hh => h hh.symm
      simp [h1, lookupKey_cons, h2, h3, ih]
    · rw [if_neg h1, lookupKey_cons, lookupKey_cons]
      by_cases h2 : pk = k <;> simp [h2, ih]

theorem hasKey_eraseKey_self (k : String) (kvs : List (String × JValue)) :
    hasKey k (eraseKey k kvs) = false := by
  induction kvs with
  | nil => rfl
  | cons p rest ih =>
    obtain ⟨pk, pv⟩ := p
    rw [eraseKey_cons]
    by_cases h1 : pk = k
    · simp [h1, ih]
    · simp [h1, hasKey_cons, ih]

theorem hasKey_eraseKey_ne (k k' : String) (kvs : List (String × JValue))
    (h : ¬ k = k') : hasKey k (eraseKey k' kvs) = hasKey k kvs := by
  induction kvs with
  | nil => rfl
  | cons p rest ih =>
    obtain ⟨pk, pv⟩ := p
    rw [eraseKey_cons]
    by_cases h1 : pk = k'
    · have h2 : ¬ pk = k := fun hh => h (by rw [← hh, h1])
      have h3 : ¬ k' = k := fun hh => h hh.symm
      simp [h1, hasKey_cons, h2, h3, ih]
    · simp [h1, hasKey_cons, ih]

theorem lookupKey_dictSet_self (k : String) (v : JValue) (kvs : List (String × JValue)) :
    lookupKey k (dictSet k v kvs) = some v := by
  induction kvs with
  | nil => simp [dictSet, lookupKey_cons]
  | cons p rest ih =>
    obtain ⟨pk, pv⟩ := p
    by_cases h1 : pk = k
    · simp [dictSet, h1, lookupKey_cons]
    · simp [dictSet, h1, lookupKey_cons, ih]

theorem lookupKey_dictSet_ne (k k' : String) (v : JValue) (kvs : List (String × JValue))
    (h : ¬ k = k') : lookupKey k (dictSet k' v kvs) = lookupKey k kvs := by
  have h' : ¬ k' = k := fun hh => h hh.symm
  induction kvs with
  | nil => simp [dictSet, lookupKey_cons, h']
  | cons p rest ih =>
    obtain ⟨pk, pv⟩ := p
    by_cases h1 : pk = k'
    · have h2 : ¬ pk = k := fun hh => h' (by rw [← h1, hh])
      simp [dictSet, h1, lookupKey_cons, h', h2]
    · simp [dictSet, h1, lookupKey_cons, ih]

theorem hasKey_dictSet_ne (k k' : String) (v : JValue) (kvs : List (String × JValue))
    (h : ¬ k = k') : hasKey k (dictSet k' v kvs) = hasKey k kvs := by
  have h' : ¬ k' = k := fun hh => h hh.symm
  induction kvs with
  | nil => simp [dictSet, hasKey_cons, hasKey, h']
  | cons p rest ih =>
    obtain ⟨pk, pv⟩ := p
    by_cases h1 : pk = k'
    · have h2 : ¬ pk = k := fun hh => h' (by rw [← h1, hh])
      simp [dictSet, h1, hasKey_cons, h', h2]
    · simp [dictSet, h1, hasKey_cons, ih]

/-! ## Claim C7: the backslash inside strings -/

/-- C7 (amended): in the comment-stripping scanner the backslash branch is
inert — while in the `inString` state a backslash has no effect at all, and
the immediately following character is interpreted normally (in particular
a quote toggles the string state).  The scanner is extensionally equal to
the same scanner with the backslash branch deleted. -/
theorem backslash_branch_inert : ∀ (l : List Char) (b : Bool),
    stripCommentAux l b = stripCommentNoBS l b
  | [], _ => rfl
  | c :: rest, b => by
    by_cases hb : b
    · by_cases h1 : c = '\\'
      · subst h1 hb
        simp [stripCommentAux, stripCommentNoBS,
          backslash_branch_inert rest true]
      · by_cases h2 : c = '"' <;>
          simp [stripCommentAux, stripCommentNoBS, hb, h1, h2,
            backslash_branch_inert rest]
    · by_cases h2 : c = '"'
      · simp [stripCommentAux, stripCommentNoBS, hb, h2,
          backslash_branch_inert rest]
      · by_cases h3 : c = '/' ∧ rest.head? = some '/' <;>
          simp [stripCommentAux, stripCommentNoBS, hb, h2, h3,
            backslash_branch_inert rest]

/-- C7 (counterexample): on the line `"\"//c` the character after the
in-string backslash is *not* skipped: the quote toggles the string state
off, the following `//` starts a comment, and the line is truncated to
`"\"` — whereas a scanner that skipped the character after a backslash
(`stripCommentSkip`, the claimed behaviour) leaves the line whole. -/
theorem backslash_skip_counterexample :
    stripComment "\"\\\"//c".data = "\"\\\"".data ∧
    stripCommentSkip "\"\\\"//c".data false = "\"\\\"//c".data ∧
    ¬ stripComment "\"\\\"//c".data = stripCommentSkip "\"\\\"//c".data false := by
  refine ⟨rfl, rfl, ?_⟩
  decide

/-! ## Claim C2: postprocessing of one object -/

/-- A `privileged`-free object is always postprocessed successfully. -/
theorem processObj_ok (kvs : List (String × JValue))
    (h : hasKey "privileged" kvs = false) :
    processObj kvs =
      .ok (if hasKey "script" kvs ∨ hasKey "scripts" kvs then
             dictSet "mute lua" (.bool true) (eraseKey "strict lua" kvs)
           else eraseKey "strict lua" kvs) := by
  by_cases hs : hasKey "script" kvs ∨ hasKey "scripts" kvs <;>
    simp [processObj, h, hs]

/-- C2: postprocessing a decoded object without a `privileged` key
succeeds and yields the same object except that `strict lua` is absent,
`mute lua` maps to `true` whenever the input contained `script` or
`scripts` (overwriting any prior value), and every other key's value is
unchanged (and `mute lua` itself is unchanged when neither `script` nor
`scripts` is present). -/
theorem postprocess_object_fields (kvs : List (String × JValue))
    (h : hasKey "privileged" kvs = false) :
    ∃ kvs', processObj kvs = .ok kvs' ∧
      hasKey "strict lua" kvs' = false ∧
      (∀ k : String, ¬ k = "strict lua" → ¬ k = "mute lua" →
        lookupKey k kvs' = lookupKey k kvs) ∧
      ((hasKey "script" kvs ∨ hasKey "scripts" kvs) →
        lookupKey "mute lua" kvs' = some (.bool true)) ∧
      (¬ (hasKey "script" kvs ∨ hasKey "scripts" kvs) →
        lookupKey "mute lua" kvs' = lookupKey "mute lua" kvs) := by
  by_cases hs : hasKey "script" kvs ∨ hasKey "scripts" kvs
  · refine ⟨dictSet "mute lua" (.bool true) (eraseKey "strict lua" kvs),
      by simp [processObj_ok kvs h, hs], ?_, ?_, ?_, ?_⟩
    · rw [hasKey_dictSet_ne _ _ _ _ (by decide), hasKey_eraseKey_self]
    · intro k hk1 hk2
      rw [lookupKey_dictSet_ne _ _ _ _ hk2, lookupKey_eraseKey_ne _ _ _ hk1]
    · intro _
      exact lookupKey_dictSet_self _ _ _
    · intro hcon
      exact absurd hs hcon
  · refine ⟨eraseKey "strict lua" kvs, by simp [processObj_ok kvs h, hs],
      hasKey_eraseKey_self _ _, ?_, ?_, ?_⟩
    · intro k hk1 _
      exact lookupKey_eraseKey_ne _ _ _ hk1
    · intro hcon
      exact absurd hcon hs
    · intro _
      exact lookupKey_eraseKey_ne _ _ _ (by decide)

/-- C2 (witness). -/
theorem postprocess_object_fields_witness :
    ∃ kvs', processObj [("id", JValue.str "z"), ("strict lua", JValue.bool true),
        ("scripts", JValue.arr [])] = .ok kvs' ∧
      hasKey "strict lua" kvs' = false ∧
      (∀ k : String, ¬ k = "strict lua" → ¬ k = "mute lua" →
        lookupKey k kvs' = lookupKey k [("id", JValue.str "z"),
          ("strict lua", JValue.bool true), ("scripts", JValue.arr [])]) ∧
      ((hasKey "script" [("id", JValue.str "z"), ("strict lua", JValue.bool true),
          ("scripts", JValue.arr [])] ∨
        hasKey "scripts" [("id", JValue.str "z"), ("strict lua", JValue.bool true),
          ("scripts", JValue.arr [])]) →
        lookupKey "mute lua" kvs' = some (.bool true)) ∧
      (¬ (hasKey "script" [("id", JValue.str "z"), ("strict lua", JValue.bool true),
          ("scripts", JValue.arr [])] ∨
        hasKey "scripts" [("id", JValue.str "z"), ("strict lua", JValue.bool true),
          ("scripts", JValue.arr [])]) →
        lookupKey "mute lua" kvs' = lookupKey "mute lua" [("id", JValue.str "z"),
          ("strict lua", JValue.bool true), ("scripts", JValue.arr [])]) :=
  postprocess_object_fields _ (by rfl)

/-! ## Claim C1: a `privileged` key aborts the run -/

/-- Postprocessing the element list stops at the first `privileged`
object with the error carrying its diagnostic identifier. -/
theorem processList_privileged : ∀ (l : List (List (String × JValue))) (j : Nat)
    (hj : j < l.length),
    hasKey "privileged" (l.get ⟨j, hj⟩) = true →
    (∀ i (hi : i < l.length), i < j → hasKey "privileged" (l.get ⟨i, hi⟩) = false) →
    processList (l.map .obj) = .error (.privileged (diagnosticId (l.get ⟨j, hj⟩)))
  | [], j, hj, _, _ => absurd hj (by simp)
  | kvs :: rest, 0, _, hp, _ => by
    simp only [List.get] at hp ⊢
    simp only [List.map_cons, processList, processObj, hp, if_true]
    rfl
  | kvs :: rest, j + 1, hj, hp, hb => by
    have h0 : hasKey "privileged" kvs = false :=
      hb 0 (by simp) (Nat.succ_pos j)
    have hj' : j < rest.length := by simpa using hj
    have ih := processList_privileged rest j hj' (by simpa using hp)
      (fun i hi hij => by
        have := hb (i + 1) (by simpa using Nat.succ_lt_succ hi) (Nat.succ_lt_succ hij)
        simpa using this)
    simp only [List.get, List.map_cons, processList, processObj_ok kvs h0, ih]
    rfl

/-- C1: if every element of the decoded list is an object and the `j`-th
is the first containing key `privileged`, the whole run fails with the
`privileged` error carrying that object's diagnostic identifier (its `id`
value if present, else the literal `unknown id`), and no normalized value
is produced. -/
theorem privileged_aborts_run (l : List (List (String × JValue))) (j : Nat)
    (hj : j < l.length)
    (hp : hasKey "privileged" (l.get ⟨j, hj⟩) = true)
    (hb : ∀ i (hi : i < l.length), i < j → hasKey "privileged" (l.get ⟨i, hi⟩) = false) :
    postprocess (.arr (l.map .obj)) =
      .error (.privileged (diagnosticId (l.get ⟨j, hj⟩))) ∧
    ∀ t, loads (truncateTopArray t) = some (.arr (l.map .obj)) →
      normalizeCleaned t = .error (.privileged (diagnosticId (l.get ⟨j, hj⟩))) := by
  have hpl := processList_privileged l j hj hp hb
  constructor
  · simp [postprocess, hpl, Except.map]
  · intro t ht
    simp [normalizeCleaned, ht, postprocess, hpl, Except.map]

/-- C1 (witness): the spec's example object aborts naming `x`. -/
theorem privileged_aborts_run_witness :
    postprocess (.arr ([[("id", JValue.str "x"), ("privileged", JValue.bool true)]].map .obj)) =
      .error (.privileged (diagnosticId
        ([[("id", JValue.str "x"), ("privileged", JValue.bool true)]].get
          ⟨0, by simp⟩))) ∧
    ∀ t, loads (truncateTopArray t) =
        some (.arr ([[("id", JValue.str "x"), ("privileged", JValue.bool true)]].map .obj)) →
      normalizeCleaned t = .error (.privileged (diagnosticId
        ([[("id", JValue.str "x"), ("privileged", JValue.bool true)]].get ⟨0, by simp⟩))) :=
  privileged_aborts_run _ 0 (by simp) (by rfl) (fun i hi hij => absurd hij (by omega))

/-! ## Claim C3: order and key-order preservation -/

theorem map_fst_eraseKey (k : String) (kvs : List (String × JValue)) :
    (eraseKey k kvs).map Prod.fst = (kvs.map Prod.fst).filter (fun k' => ¬ k' = k) := by
  induction kvs with
  | nil => rfl
  | cons p rest ih =>
    obtain ⟨pk, pv⟩ := p
    rw [eraseKey_cons]
    by_cases h : pk = k <;> simp [h, List.filter_cons, ih]

theorem map_fst_dictSet (k : String) (v : JValue) (kvs : List (String × JValue)) :
    (dictSet k v kvs).map Prod.fst =
      if hasKey k kvs then kvs.map Prod.fst else kvs.map Prod.fst ++ [k] := by
  induction kvs with
  | nil => simp [dictSet, hasKey]
  | cons p rest ih =>
    obtain ⟨pk, pv⟩ := p
    by_cases h : pk = k
    · simp [dictSet, h, hasKey_cons]
    · rw [hasKey_cons]
      by_cases hr : hasKey k rest <;> simp [dictSet, h, hr, ih]

/-- A successful `processObj` never starts from a `privileged` object. -/
theorem processObj_ok_no_priv (kvs kvs' : List (String × JValue))
    (h : processObj kvs = .ok kvs') : hasKey "privileged" kvs = false := by
  by_cases hp : hasKey "privileged" kvs = true
  · simp [processObj, hp] at h
  · simpa using hp

/-- Key order after postprocessing one object. -/
theorem keys_processObj (kvs kvs' : List (String × JValue))
    (h : processObj kvs = .ok kvs') :
    kvs'.map Prod.fst = keysAfterPostprocess kvs := by
  have hp := processObj_ok_no_priv kvs kvs' h
  rw [processObj_ok kvs hp] at h
  have hkvs' := (Except.ok.injEq _ _).mp h.symm
  subst hkvs'
  by_cases hs : hasKey "script" kvs ∨ hasKey "scripts" kvs
  · rw [if_pos hs, map_fst_dictSet,
      hasKey_eraseKey_ne "mute lua" "strict lua" kvs (by decide), map_fst_eraseKey]
    by_cases hm : hasKey "mute lua" kvs = true
    · simp [keysAfterPostprocess, hs, hm]
    · simp only [Bool.not_eq_true] at hm
      simp [keysAfterPostprocess, hs, hm]
  · rw [if_neg hs, map_fst_eraseKey]
    simp [keysAfterPostprocess, hs]

/-- A successful run processes the elements pointwise, in order. -/
theorem processList_ok_parts : ∀ (l : List (List (String × JValue)))
    (l' : List (List (String × JValue))),
    processList (l.map .obj) = .ok l' →
    l'.length = l.length ∧
    ∀ j (hj : j < l.length) (hj' : j < l'.length),
      processObj (l.get ⟨j, hj⟩) = .ok (l'.get ⟨j, hj'⟩)
  | [], l', h => by
    simp only [List.map_nil, processList] at h
    have := (Except.ok.injEq _ _).mp h
    subst this
    exact ⟨rfl, fun j hj _ => absurd hj (by simp)⟩
  | kvs :: rest, l', h => by
    simp only [List.map_cons, processList] at h
    cases hpo : processObj kvs with
    | error e => rw [hpo] at h; exact absurd h (by simp [Bind.bind, Except.bind])
    | ok o =>
      rw [hpo] at h
      cases hpl : processList (rest.map .obj) with
      | error e => rw [hpl] at h; exact absurd h (by simp [Bind.bind, Except.bind])
      | ok r =>
        rw [hpl] at h
        simp only [Bind.bind, Except.bind] at h
        have := (Except.ok.injEq _ _).mp h
        subst this
        obtain ⟨hlen, helt⟩ := processList_ok_parts rest r hpl
        refine ⟨by simp [hlen], ?_⟩
        intro j hj hj'
        match j with
        | 0 => simpa using hpo
        | j + 1 =>
          have hj2 : j < rest.length := by simpa using hj
          have hj2' : j < r.length := by simpa using hj'
          simpa using helt j hj2 hj2'

/-- C3: when postprocessing succeeds, the output list has exactly as many
objects as the decoded list, in the same relative order (the `j`-th output
object is the postprocessing of the `j`-th input object), each output
object's key order equals decode order with `strict lua` dropped and
`mute lua` appended as the last key exactly when newly introduced, and the
final output text is the encoding of that list. -/
theorem postprocess_preserves_order (l l' : List (List (String × JValue)))
    (h : processList (l.map .obj) = .ok l') :
    l'.length = l.length ∧
    (∀ j (hj : j < l.length) (hj' : j < l'.length),
      processObj (l.get ⟨j, hj⟩) = .ok (l'.get ⟨j, hj'⟩) ∧
      (l'.get ⟨j, hj'⟩).map Prod.fst = keysAfterPostprocess (l.get ⟨j, hj⟩)) ∧
    (∀ t, loads (truncateTopArray t) = some (.arr (l.map .obj)) →
      normalizeCleaned t = .ok (jdump (.arr (l'.map .obj)))) := by
  obtain ⟨hlen, helt⟩ := processList_ok_parts l l' h
  refine ⟨hlen, ?_, ?_⟩
  · intro j hj hj'
    exact ⟨helt j hj hj', keys_processObj _ _ (helt j hj hj')⟩
  · intro t ht
    simp [normalizeCleaned, ht, postprocess, h, Except.map]

/-- C3 (witness). -/
theorem postprocess_preserves_order_witness :
    ([[("id", JValue.str "z"), ("scripts", JValue.arr []),
       ("mute lua", JValue.bool true)], [("n", JValue.num 1)]] :
      List (List (String × JValue))).length =
    ([[("id", JValue.str "z"), ("scripts", JValue.arr [])],
      [("n", JValue.num 1)]] : List (List (String × JValue))).length :=
  (postprocess_preserves_order
    [[("id", JValue.str "z"), ("scripts", JValue.arr [])], [("n", JValue.num 1)]]
    [[("id", JValue.str "z"), ("scripts", JValue.arr []), ("mute lua", JValue.bool true)],
     [("n", JValue.num 1)]] (by rfl)).1

/-! ## Claim C10: what shapes of decoded value can produce output -/

/-- A successful element loop means every element was an object (without
a `privileged` key). -/
theorem processList_ok_elements (l : List JValue) (r : List (List (String × JValue)))
    (h : processList l = .ok r) :
    ∀ e ∈ l, ∃ kvs, e = .obj kvs ∧ hasKey "privileged" kvs = false := by
  induction l generalizing r with
  | nil => simp
  | cons e rest ih =>
    cases e with
    | obj kvs =>
      simp only [processList] at h
      cases hpo : processObj kvs with
      | error e' => rw [hpo] at h; simp [Bind.bind, Except.bind] at h
      | ok o =>
        rw [hpo] at h
        cases hpl : processList rest with
        | error e' => rw [hpl] at h; simp [Bind.bind, Except.bind] at h
        | ok rr =>
          intro e he
          rcases List.mem_cons.mp he with rfl | hmem
          · exact ⟨kvs, rfl, processObj_ok_no_priv kvs o hpo⟩
          · exact ih rr hpl e hmem
    | null => simp [processList] at h
    | bool b => simp [processList] at h
    | num n => simp [processList] at h
    | str s => simp [processList] at h
    | arr a => simp [processList] at h

/-- C10 (amended): producing output requires the decoded value to be an
array whose every element is an object free of `privileged` — or one of
the two degenerate iterables whose loop body never runs, the empty object
and the empty string. -/
theorem output_requires_objects (v r : JValue) (h : postprocess v = .ok r) :
    (∃ l, v = .arr l ∧ ∀ e ∈ l, ∃ kvs, e = .obj kvs ∧ hasKey "privileged" kvs = false) ∨
    v = .obj [] ∨ v = .str "" := by
  cases v with
  | arr l =>
    left
    refine ⟨l, rfl, ?_⟩
    simp only [postprocess] at h
    cases hpl : processList l with
    | error e => rw [hpl] at h; simp [Except.map] at h
    | ok rr => exact processList_ok_elements l rr hpl
  | obj kvs =>
    cases kvs with
    | nil => right; left; rfl
    | cons p rest => simp [postprocess] at h
  | str s =>
    right; right
    simp only [postprocess] at h
    by_cases hs : s.data = []
    · cases s with
      | mk d =>
        simp only [String.data] at hs
        subst hs
        rfl
    · simp [hs] at h
  | null => simp [postprocess] at h
  | bool b => simp [postprocess] at h
  | num n => simp [postprocess] at h

/-- C10 (witness). -/
theorem output_requires_objects_witness :
    (∃ l, JValue.arr [JValue.obj []] = .arr l ∧
      ∀ e ∈ l, ∃ kvs, e = .obj kvs ∧ hasKey "privileged" kvs = false) ∨
    JValue.arr [JValue.obj []] = .obj [] ∨ JValue.arr [JValue.obj []] = .str "" :=
  output_requires_objects (.arr [.obj []]) (.arr [.obj []]) (by rfl)

/-- C10 (counterexample): the truncated text `""` strict-decodes to the
empty string — not an array of objects — yet `optimize_json` succeeds and
produces output. -/
theorem non_array_value_can_produce_output :
    loads (truncateTopArray "\"\"".data) = some (.str "") ∧
    optimize_json ["\"\"".data] = .ok "\"\"".data := by
  exact ⟨rfl, rfl⟩

/-! ## Claims C4 and C5: bracket-depth truncation -/

/-- When the scan never reaches a truncation point, the text is left
untouched. -/
theorem truncateAux_of_stop_none : ∀ (t : List Char) (b : Bool) (d : Int),
    stopIndexAux t (b, d) = none → truncateAux t b d = t
  | [], _, _, _ => rfl
  | c :: rest, b, d, h => by
    simp only [stopIndexAux] at h
    by_cases hcond : (b, d).1 = false ∧ c = ']' ∧ (b, d).2 = 1
    · obtain ⟨hb1, hc1, hd1⟩ := hcond
      rw [if_pos ⟨hb1, hc1, hd1⟩] at h
      exact absurd h (by simp)
    · rw [if_neg hcond] at h
      have hrest := Option.map_eq_none.mp h
      by_cases hb : b
      · subst hb
        by_cases hc : c = '"' <;>
          simp [truncateAux, hc,
            truncateAux_of_stop_none rest _ _ (by simpa [truncStep, hc] using hrest)]
      · simp only [Bool.not_eq_true] at hb
        subst hb
        by_cases hc1 : c = '"'
        · simp [truncateAux, hc1,
            truncateAux_of_stop_none rest _ _ (by simpa [truncStep, hc1] using hrest)]
        · by_cases hc2 : c = '['
          · simp [truncateAux, hc1, hc2,
              truncateAux_of_stop_none rest _ _ (by simpa [truncStep, hc1, hc2] using hrest)]
          · by_cases hc3 : c = ']'
            · have hd : ¬ d = 1 := by
                intro hd1
                exact hcond ⟨rfl, hc3, by simpa using hd1⟩
              have hd' : ¬ d - 1 = 0 := by
                intro hh
                exact hd (by omega)
              simp [truncateAux, hc1, hc2, hc3, hd',
                truncateAux_of_stop_none rest _ _
                  (by simpa [truncStep, hc1, hc2, hc3] using hrest)]
            · simp [truncateAux, hc1, hc2, hc3,
                truncateAux_of_stop_none rest _ _
                  (by simpa [truncStep, hc1, hc2, hc3] using hrest)]

/-- C5 (amended): when the depth counter never returns to zero from a
positive value, no truncation happens — the full text is handed to the
strict decoder — and if that decoding fails the run fails with the
malformed-document error and produces no output.  (Failure is *not*
guaranteed: see the counterexample.) -/
theorem no_stop_no_truncation (t : List Char) (h : stopIndex t = none) :
    truncateTopArray t = t ∧
    (loads t = none → normalizeCleaned t = .error .malformed) := by
  have h1 : truncateTopArray t = t := truncateAux_of_stop_none t false 0 h
  refine ⟨h1, fun h2 => ?_⟩
  simp [normalizeCleaned, h1, h2]

/-- C5 (witness): the text `[` goes positive and never rebalances, its
decoding fails, and the run errors. -/
theorem no_stop_no_truncation_witness :
    truncateTopArray "[".data = "[".data ∧
    normalizeCleaned "[".data = .error .malformed :=
  ⟨(no_stop_no_truncation "[".data (by rfl)).1,
   (no_stop_no_truncation "[".data (by rfl)).2 (by rfl)⟩

/-- C5 (counterexample): on the cleaned text `{}` the depth counter never
returns to zero after having gone positive (it never moves), yet
normalization does not fail — it produces the output `{}`. -/
theorem unbalanced_text_can_produce_output :
    stopIndex "{}".data = none ∧
    normalizeCleaned "{}".data = .ok "{}".data :=
  ⟨rfl, rfl⟩

/-- Truncation keeps exactly the prefix up to the truncation point found
by the state scan. -/
theorem truncateAux_of_stop_some : ∀ (t : List Char) (b : Bool) (d : Int) (i : Nat),
    stopIndexAux t (b, d) = some i → truncateAux t b d = t.take (i + 1)
  | [], _, _, _, h => Option.noConfusion h
  | c :: rest, b, d, i, h => by
    simp only [stopIndexAux] at h
    by_cases hcond : (b, d).1 = false ∧ c = ']' ∧ (b, d).2 = 1
    · obtain ⟨hb1, hc1, hd1⟩ := hcond
      rw [if_pos ⟨hb1, hc1, hd1⟩] at h
      have hi : i = 0 := by simpa using h.symm
      subst hi
      simp only at hb1 hd1
      subst hb1 hc1
      have : d - 1 = 0 := by omega
      simp [truncateAux, this]
    · rw [if_neg hcond] at h
      obtain ⟨i', hi', rfl⟩ : ∃ i', stopIndexAux rest (truncStep (b, d) c) = some i' ∧ i = i' + 1 := by
        cases hop : stopIndexAux rest (truncStep (b, d) c) with
        | none => rw [hop] at h; simp at h
        | some k =>
          rw [hop] at h
          simp only [Option.map_some'] at h
          exact ⟨k, rfl, by simpa using h.symm⟩
      by_cases hb : b
      · subst hb
        by_cases hc : c = '"' <;>
          simp [truncateAux, hc, List.take_succ_cons,
            truncateAux_of_stop_some rest _ _ i' (by simpa [truncStep, hc] using hi')]
      · simp only [Bool.not_eq_true] at hb
        subst hb
        by_cases hc1 : c = '"'
        · simp [truncateAux, hc1, List.take_succ_cons,
            truncateAux_of_stop_some rest _ _ i' (by simpa [truncStep, hc1] using hi')]
        · by_cases hc2 : c = '['
          · simp [truncateAux, hc1, hc2, List.take_succ_cons,
              truncateAux_of_stop_some rest _ _ i' (by simpa [truncStep, hc1, hc2] using hi')]
          · by_cases hc3 : c = ']'
            · have hd : ¬ d = 1 := by
                intro hd1
                exact hcond ⟨rfl, hc3, by simpa using hd1⟩
              have hd' : ¬ d - 1 = 0 := by
                intro hh
                exact hd (by omega)
              simp [truncateAux, hc1, hc2, hc3, hd', List.take_succ_cons,
                truncateAux_of_stop_some rest _ _ i'
                  (by simpa [truncStep, hc1, hc2, hc3] using hi')]
            · simp [truncateAux, hc1, hc2, hc3, List.take_succ_cons,
                truncateAux_of_stop_some rest _ _ i'
                  (by simpa [truncStep, hc1, hc2, hc3] using hi')]

/-- The truncation point found by the scan really is a stop: a `]`,
outside a string, at depth exactly 1. -/
theorem stopIndexAux_sound : ∀ (t : List Char) (st : Bool × Int) (i : Nat),
    stopIndexAux t st = some i →
    ∃ h : i < t.length,
      t.get ⟨i, h⟩ = ']' ∧ ((t.take i).foldl truncStep st).1 = false ∧
      ((t.take i).foldl truncStep st).2 = 1
  | [], _, _, h => Option.noConfusion h
  | c :: rest, st, i, h => by
    simp only [stopIndexAux] at h
    by_cases hcond : st.1 = false ∧ c = ']' ∧ st.2 = 1
    · rw [if_pos hcond] at h
      have hi : i = 0 := by simpa using h.symm
      subst hi
      exact ⟨by simp, hcond.2.1, by simpa using hcond.1, by simpa using hcond.2.2⟩
    · rw [if_neg hcond] at h
      obtain ⟨i', hi', rfl⟩ : ∃ i', stopIndexAux rest (truncStep st c) = some i' ∧ i = i' + 1 := by
        cases hop : stopIndexAux rest (truncStep st c) with
        | none => rw [hop] at h; simp at h
        | some k =>
          rw [hop] at h
          simp only [Option.map_some'] at h
          exact ⟨k, rfl, by simpa using h.symm⟩
      obtain ⟨hlt, hget, h1, h2⟩ := stopIndexAux_sound rest (truncStep st c) i' hi'
      exact ⟨by simpa using Nat.succ_lt_succ hlt, by simpa using hget,
        by simpa [List.take_succ_cons] using h1,
        by simpa [List.take_succ_cons] using h2⟩

/-- No position before the truncation point is a stop. -/
theorem stopIndexAux_least : ∀ (t : List Char) (st : Bool × Int) (i : Nat),
    stopIndexAux t st = some i →
    ∀ j, j < i → ∀ hj : j < t.length,
      ¬ (t.get ⟨j, hj⟩ = ']' ∧ ((t.take j).foldl truncStep st).1 = false ∧
         ((t.take j).foldl truncStep st).2 = 1)
  | [], _, _, h => Option.noConfusion h
  | c :: rest, st, i, h => by
    simp only [stopIndexAux] at h
    by_cases hcond : st.1 = false ∧ c = ']' ∧ st.2 = 1
    · rw [if_pos hcond] at h
      have hi : i = 0 := by simpa using h.symm
      subst hi
      intro j hj
      exact absurd hj (by omega)
    · rw [if_neg hcond] at h
      obtain ⟨i', hi', rfl⟩ : ∃ i', stopIndexAux rest (truncStep st c) = some i' ∧ i = i' + 1 := by
        cases hop : stopIndexAux rest (truncStep st c) with
        | none => rw [hop] at h; simp at h
        | some k =>
          rw [hop] at h
          simp only [Option.map_some'] at h
          exact ⟨k, rfl, by simpa using h.symm⟩
      intro j hj hjlen
      match j with
      | 0 =>
        intro hcon
        exact hcond ⟨by simpa using hcon.2.1, by simpa using hcon.1, by simpa using hcon.2.2⟩
      | j + 1 =>
        intro hcon
        have hj' : j < i' := by omega
        have hjlen' : j < rest.length := by simpa using hjlen
        exact stopIndexAux_least rest (truncStep st c) i' hi' j hj' hjlen'
          ⟨by simpa using hcon.1, by simpa [List.take_succ_cons] using hcon.2.1,
           by simpa [List.take_succ_cons] using hcon.2.2⟩

/-- C4: the cleaned text is truncated inclusively at the first `]` outside
a string at which the depth counter, having gone positive (it stands at 1),
returns to zero — everything after that `]` is discarded; in particular
`[{"a":1}] garbage after` truncates to `[{"a":1}]`, which decodes
successfully. -/
theorem truncation_at_first_balanced_bracket :
    (∀ (t : List Char) (i : Nat), stopIndex t = some i →
      truncateTopArray t = t.take (i + 1) ∧ isStopAt t i = true ∧
      ∀ j, j < i → isStopAt t j = false) ∧
    truncateTopArray "[\x7b\"a\":1\x7d] garbage after".data = "[\x7b\"a\":1\x7d]".data ∧
    loads "[\x7b\"a\":1\x7d]".data = some (.arr [.obj [("a", .num 1)]]) := by
  refine ⟨?_, rfl, rfl⟩
  intro t i h
  refine ⟨truncateAux_of_stop_some t false 0 i h, ?_, ?_⟩
  · obtain ⟨hlt, hget, h1, h2⟩ := stopIndexAux_sound t (false, 0) i h
    simp only [isStopAt, dif_pos hlt, truncStateAt, decide_eq_true_eq]
    exact ⟨hget, h1, h2⟩
  · intro j hj
    by_cases hjlen : j < t.length
    · have hno := stopIndexAux_least t (false, 0) i h j hj hjlen
      simp only [isStopAt, dif_pos hjlen, truncStateAt, decide_eq_false_iff_not]
      exact hno
    · simp [isStopAt, hjlen]

/-- C4 (witness). -/
theorem truncation_at_first_balanced_bracket_witness :
    truncateTopArray "[\x7b\"a\":1\x7d] garbage after".data =
      ("[\x7b\"a\":1\x7d] garbage after".data).take 9 ∧
    isStopAt "[\x7b\"a\":1\x7d] garbage after".data 8 = true ∧
    ∀ j, j < 8 → isStopAt "[\x7b\"a\":1\x7d] garbage after".data j = false :=
  truncation_at_first_balanced_bracket.1 "[\x7b\"a\":1\x7d] garbage after".data 8 (by rfl)

/-! ## Claim C8: shape of the encoded output -/

theorem hexDigitChar_ge (n : Nat) (h : n < 16) : 0x20 ≤ (hexDigitChar n).toNat := by
  interval_cases n <;> decide

theorem digitChar_ge (d : Nat) (h : d < 10) : 0x20 ≤ (Char.ofNat (48 + d)).toNat := by
  interval_cases d <;> decide

theorem escChar_no_control (c : Char) : ∀ c' ∈ escChar c, 0x20 ≤ c'.toNat := by
  intro c' hc'
  unfold escChar at hc'
  split_ifs at hc' with h1 h2 h3 h4 h5 h6 h7 h8
  · simp only [List.mem_cons, List.not_mem_nil, or_false] at hc'
    rcases hc' with rfl | rfl <;> decide
  · simp only [List.mem_cons, List.not_mem_nil, or_false] at hc'
    rcases hc' with rfl | rfl <;> decide
  · simp only [List.mem_cons, List.not_mem_nil, or_false] at hc'
    rcases hc' with rfl | rfl <;> decide
  · simp only [List.mem_cons, List.not_mem_nil, or_false] at hc'
    rcases hc' with rfl | rfl <;> decide
  · simp only [List.mem_cons, List.not_mem_nil, or_false] at hc'
    rcases hc' with rfl | rfl <;> decide
  · simp only [List.mem_cons, List.not_mem_nil, or_false] at hc'
    rcases hc' with rfl | rfl <;> decide
  · simp only [List.mem_cons, List.not_mem_nil, or_false] at hc'
    rcases hc' with rfl | rfl <;> decide
  · simp only [List.mem_cons, List.not_mem_nil, or_false] at hc'
    rcases hc' with rfl | rfl | rfl | rfl | rfl | rfl
    · decide
    · decide
    · decide
    · decide
    · exact hexDigitChar_ge _ (by omega)
    · exact hexDigitChar_ge _ (by omega)
  · simp only [List.mem_cons, List.not_mem_nil, or_false] at hc'
    subst hc'
    omega

theorem encStr_no_control (s : List Char) : ∀ c ∈ encStr s, 0x20 ≤ c.toNat := by
  intro c hc
  unfold encStr at hc
  rcases List.mem_cons.mp hc with rfl | hc2
  · decide
  rcases List.mem_append.mp hc2 with hc3 | hc4
  · obtain ⟨l', hl', hcl⟩ := List.mem_flatten.mp hc3
    obtain ⟨c', _, rfl⟩ := List.mem_map.mp hl'
    exact escChar_no_control c' c hcl
  · rcases List.mem_cons.mp hc4 with rfl | h
    · decide
    · simp at h

theorem natReprAux_digits : ∀ (fuel n : Nat), ∀ c ∈ natReprAux fuel n,
    ∃ d, d < 10 ∧ c = Char.ofNat (48 + d)
  | 0, _ => by simp [natReprAux]
  | fuel + 1, n => by
    intro c hc
    simp only [natReprAux] at hc
    by_cases hn : n = 0
    · simp [hn] at hc
    · rw [if_neg hn] at hc
      rcases List.mem_append.mp hc with hc1 | hc2
      · exact natReprAux_digits fuel (n / 10) c hc1
      · simp only [List.mem_cons, List.not_mem_nil, or_false] at hc2
        exact ⟨n % 10, Nat.mod_lt n (by omega), hc2⟩

theorem natRepr_ge (n : Nat) : ∀ c ∈ natRepr n, 0x20 ≤ c.toNat := by
  intro c hcn
  unfold natRepr at hcn
  by_cases hn : n = 0
  · rw [if_pos hn] at hcn
    simp only [List.mem_cons, List.not_mem_nil, or_false] at hcn
    subst hcn
    decide
  · rw [if_neg hn] at hcn
    obtain ⟨d, hd, rfl⟩ := natReprAux_digits n n c hcn
    exact digitChar_ge d hd

theorem intRepr_no_control (i : Int) : ∀ c ∈ intRepr i, 0x20 ≤ c.toNat := by
  intro c hc
  unfold intRepr at hc
  split_ifs at hc with h
  · rcases List.mem_cons.mp hc with rfl | hc2
    · decide
    · exact natRepr_ge _ c hc2
  · exact natRepr_ge _ c hc

mutual

theorem jdump_no_control : ∀ (v : JValue), ∀ c ∈ jdump v, 0x20 ≤ c.toNat
  | .null => by decide
  | .bool true => by decide
  | .bool false => by decide
  | .num i => by simpa [jdump] using intRepr_no_control i
  | .str s => by simpa [jdump] using encStr_no_control s.data
  | .arr l => by
    intro c hc
    simp only [jdump] at hc
    rcases List.mem_cons.mp hc with rfl | hc2
    · decide
    rcases List.mem_append.mp hc2 with hc3 | hc4
    · exact jdumpElems_no_control l c hc3
    · rcases List.mem_cons.mp hc4 with rfl | h
      · decide
      · simp at h
  | .obj kvs => by
    intro c hc
    simp only [jdump] at hc
    rcases List.mem_cons.mp hc with rfl | hc2
    · decide
    rcases List.mem_append.mp hc2 with hc3 | hc4
    · exact jdumpMembers_no_control kvs c hc3
    · rcases List.mem_cons.mp hc4 with rfl | h
      · decide
      · simp at h

theorem jdumpElems_no_control : ∀ (l : List JValue), ∀ c ∈ jdumpElems l, 0x20 ≤ c.toNat
  | [] => by simp [jdumpElems]
  | [v] => by simpa [jdumpElems] using jdump_no_control v
  | v :: w :: rest => by
    intro c hc
    simp only [jdumpElems] at hc
    rcases List.mem_append.mp hc with hc1 | hc2
    · exact jdump_no_control v c hc1
    rcases List.mem_cons.mp hc2 with rfl | hc3
    · decide
    rcases List.mem_cons.mp hc3 with rfl | hc4
    · decide
    · exact jdumpElems_no_control (w :: rest) c hc4

theorem jdumpMembers_no_control : ∀ (kvs : List (String × JValue)),
    ∀ c ∈ jdumpMembers kvs, 0x20 ≤ c.toNat
  | [] => by simp [jdumpMembers]
  | [(k, v)] => by
    intro c hc
    simp only [jdumpMembers] at hc
    rcases List.mem_append.mp hc with hc1 | hc2
    · exact encStr_no_control k.data c hc1
    rcases List.mem_cons.mp hc2 with rfl | hc3
    · decide
    rcases List.mem_cons.mp hc3 with rfl | hc4
    · decide
    · exact jdump_no_control v c hc4
  | (k, v) :: p :: rest => by
    intro c hc
    simp only [jdumpMembers] at hc
    rcases List.mem_append.mp hc with hc1 | hc2
    · rcases List.mem_append.mp hc1 with hc3 | hc4
      · exact encStr_no_control k.data c hc3
      rcases List.mem_cons.mp hc4 with rfl | hc5
      · decide
      rcases List.mem_cons.mp hc5 with rfl | hc6
      · decide
      · exact jdump_no_control v c hc6
    · rcases List.mem_cons.mp hc2 with rfl | hc3
      · decide
      rcases List.mem_cons.mp hc3 with rfl | hc4
      · decide
      · exact jdumpMembers_no_control (p :: rest) c hc4

end

theorem escChar_literal (c : Char) (h1 : 0x20 ≤ c.toNat) (h2 : ¬ c = '"')
    (h3 : ¬ c = '\\') : escChar c = [c] := by
  unfold escChar
  have hn : ∀ c' : Char, c'.toNat < 0x20 → ¬ c = c' := by
    intro c' hc' he
    rw [he] at h1
    omega
  rw [if_neg h2, if_neg h3, if_neg (hn '\n' (by decide)), if_neg (hn '\r' (by decide)),
    if_neg (hn '\t' (by decide)), if_neg (hn '\x08' (by decide)),
    if_neg (hn '\x0c' (by decide)), if_neg (by omega)]

theorem escChar_flatten_literal : ∀ (s : List Char),
    (∀ c ∈ s, 0x20 ≤ c.toNat ∧ ¬ c = '"' ∧ ¬ c = '\\') →
    (s.map escChar).flatten = s
  | [], _ => rfl
  | c :: rest, h => by
    have hc := h c (by simp)
    simp only [List.map_cons, List.flatten_cons,
      escChar_literal c hc.1 hc.2.1 hc.2.2, List.singleton_append]
    rw [escChar_flatten_literal rest (fun c' hc' => h c' (by simp [hc']))]

theorem encStr_literal (s : List Char)
    (h : ∀ c ∈ s, 0x20 ≤ c.toNat ∧ ¬ c = '"' ∧ ¬ c = '\\') :
    encStr s = '"' :: (s ++ ['"']) := by
  unfold encStr
  rw [escChar_flatten_literal s h]
  rfl

/-- C8 (amended): the final encoding is single-line JSON — every character
of the dumped text has code point at least `0x20` (control characters are
escaped, so there are no raw newlines or tabs) — it uses the separators
`", "` and `": "` (so it does contain inserted spaces), and non-ASCII
characters are left unescaped: any string whose characters need no JSON
escaping (code point at least `0x20`, not `"` or `\`), in particular any
non-ASCII text, is emitted literally between its quotes. -/
theorem encoding_single_line_non_ascii_preserved :
    (∀ v : JValue, ∀ c ∈ jdump v, 0x20 ≤ c.toNat) ∧
    (∀ s : List Char, (∀ c ∈ s, 0x20 ≤ c.toNat ∧ ¬ c = '"' ∧ ¬ c = '\\') →
      encStr s = '"' :: (s ++ ['"'])) ∧
    (∀ (v w : JValue) (l : List JValue),
      jdumpElems (v :: w :: l) = jdump v ++ ',' :: ' ' :: jdumpElems (w :: l)) ∧
    (∀ (k : String) (v : JValue) (p : String × JValue) (kvs : List (String × JValue)),
      jdumpMembers ((k, v) :: p :: kvs) =
        encStr k.data ++ ':' :: ' ' :: jdump v ++ ',' :: ' ' :: jdumpMembers (p :: kvs)) :=
  ⟨jdump_no_control, encStr_literal, fun _ _ _ => rfl, fun _ _ _ _ => rfl⟩

/-- C8 (witness): a non-ASCII string passes through unescaped. -/
theorem encoding_single_line_witness :
    encStr "ü".data = '"' :: ("ü".data ++ ['"']) :=
  encoding_single_line_non_ascii_preserved.2.1 "ü".data (by decide)

/-- C8 (counterexample): the encoded output of a successful run contains
inserted whitespace — `json.dumps` with default separators puts a space
after every colon and comma, so `[{"a":1}]` re-encodes as `[{"a": 1}]`. -/
theorem encoding_contains_spaces :
    optimize_json ["[\x7b\"a\":1\x7d]".data] = .ok "[\x7b\"a\": 1\x7d]".data ∧
    ' ' ∈ "[\x7b\"a\": 1\x7d]".data := by
  exact ⟨rfl, by decide⟩

/-! ## Claim C6: the bare-value quoting boundary -/

theorem takeWhile_all_append (p : Char → Bool) :
    ∀ (xs : List Char) (y : Char) (ys : List Char),
    (∀ x ∈ xs, p x = true) → p y = false →
    (xs ++ y :: ys).takeWhile p = xs ∧ (xs ++ y :: ys).dropWhile p = y :: ys
  | [], y, ys, _, hy => by simp [List.takeWhile_cons, List.dropWhile_cons, hy]
  | x :: xs, y, ys, h, hy => by
    have hx : p x = true := h x (by simp)
    have ih := takeWhile_all_append p xs y ys (fun x' hx' => h x' (by simp [hx'])) hy
    simp [List.takeWhile_cons, List.dropWhile_cons, hx, ih.1, ih.2]

theorem inA_of_inB (c : Char) (h : inB c = true) : inA c = true := by
  simp only [inB, Bool.decide_and, Bool.and_eq_true, decide_eq_true_eq] at h
  simpa using h.1

theorem not_pyWs_of_inB (c : Char) (h : inB c = true) : pyWs c = false := by
  simp only [inB, Bool.decide_and, Bool.and_eq_true, decide_eq_true_eq] at h
  simpa using h.2

theorem matchG1_canonical (k : List Char) (t0 : Char) (trest : List Char)
    (hk : ∀ c ∈ k, ¬ c = '"') (ht0 : pyWs t0 = false) :
    matchG1 ('"' :: k ++ '"' :: ':' :: t0 :: trest) =
      some ('"' :: (k ++ ['"', ':']), t0 :: trest) := by
  have hq : notQuote '"' = false := by decide
  have hall : ∀ x ∈ k, notQuote x = true := by
    intro x hx
    simpa [notQuote] using hk x hx
  have h1 := takeWhile_all_append notQuote k '"' (':' :: t0 :: trest) hall hq
  have hcolon : pyWs ':' = false := by decide
  simp only [List.cons_append, matchG1, if_pos rfl]
  rw [h1.1, h1.2]
  simp only [List.dropWhile_cons, List.takeWhile_cons, hcolon, Bool.false_eq_true, if_false,
    if_pos rfl, ht0]
  simp

theorem matchTail_canonical (b : List Char) (d : Char) (hb : ∀ c ∈ b, inB c = true)
    (hd : d = ',' ∨ d = '}') :
    matchTail (b ++ [d]) = some (b, [d], []) := by
  have hdB : inB d = false := by rcases hd with rfl | rfl <;> decide
  have h1 := takeWhile_all_append inB b d [] hb hdB
  have hdW : pyWs d = false := by rcases hd with rfl | rfl <;> decide
  simp only [matchTail, h1.1, h1.2, List.takeWhile_cons, hdW, Bool.false_eq_true, if_false,
    List.dropWhile_cons]
  rw [if_pos hd]
  simp [List.takeWhile_cons, hdW]

theorem attemptAt_canonical (c0 : Char) (t' : List Char) (d : Char) (j : Nat)
    (ht : ∀ c ∈ t', inB c = true) (hd : d = ',' ∨ d = '}') :
    attemptAt c0 (t' ++ [d]) j =
      if h : j < t'.length then
        (if isAlphaAZ (t'.get ⟨j, h⟩) then some (c0 :: t', [d], []) else none)
      else none := by
  have hdA : inA d = false := by rcases hd with rfl | rfl <;> decide
  have hdAl : isAlphaAZ d = false := by rcases hd with rfl | rfl <;> decide
  by_cases h : j < t'.length
  · rw [dif_pos h]
    have htake : (t' ++ [d]).take j = t'.take j :=
      List.take_append_of_le_length (by omega)
    have hall : ((t' ++ [d]).take j).all inA = true := by
      rw [htake]
      exact List.all_eq_true.mpr fun c hc =>
        inA_of_inB c (ht c (List.take_subset j t' hc))
    have hcd : t'.get ⟨j, h⟩ :: t'.drop (j + 1) = t'.drop j := by
      rw [List.get_eq_getElem]
      exact List.getElem_cons_drop t' j h
    have hdrop : (t' ++ [d]).drop j = t'.get ⟨j, h⟩ :: (t'.drop (j + 1) ++ [d]) := by
      rw [List.drop_append_of_le_length (by omega), ← hcd]
      rfl
    have htail := matchTail_canonical (t'.drop (j + 1)) d
      (fun c hc => ht c (List.drop_subset (j + 1) t' hc)) hd
    by_cases ha : isAlphaAZ (t'.get ⟨j, h⟩)
    · rw [if_pos ha]
      simp only [attemptAt, hall, if_pos rfl, hdrop, ha, if_pos rfl, htail]
      simp [hcd, htake, List.take_append_drop]
    · rw [if_neg ha]
      simp only [attemptAt, hall, if_pos rfl, hdrop, ha]
      simp
  · rw [dif_neg h]
    by_cases hj : j = t'.length
    · subst hj
      have htake : (t' ++ [d]).take t'.length = t' := by
        rw [List.take_append_of_le_length (by omega)]
        simp
      have hdrop : (t' ++ [d]).drop t'.length = [d] := by
        rw [List.drop_append_of_le_length (by omega)]
        simp
      simp [attemptAt, htake, hdrop, hdAl,
        List.all_eq_true.mpr fun c hc => inA_of_inB c (ht c hc)]
    · have htake : (t' ++ [d]).take j = t' ++ [d] :=
        List.take_of_length_le (by simp; omega)
      have hfalse : ((t' ++ [d]).take j).all inA = false := by
        rw [htake]
        simp only [List.all_append, Bool.and_eq_false_iff]
        right
        simp [hdA]
      simp [attemptAt, hfalse]

theorem tryK_canonical (c0 : Char) (t' : List Char) (d : Char)
    (ht : ∀ c ∈ t', inB c = true) (hd : d = ',' ∨ d = '}') :
    ∀ kf : Nat, tryK c0 (t' ++ [d]) kf =
      if (t'.take (kf + 1)).any isAlphaAZ then some (c0 :: t', [d], []) else none
  | 0 => by
    rw [tryK, attemptAt_canonical c0 t' d 0 ht hd]
    cases t' with
    | nil => simp
    | cons a rest =>
      by_cases ha : isAlphaAZ a
      · simp [ha]
      · simp [ha]
  | kf + 1 => by
    have hind := tryK_canonical c0 t' d ht hd kf
    rw [tryK, attemptAt_canonical c0 t' d (kf + 1) ht hd]
    by_cases h : kf + 1 < t'.length
    · rw [dif_pos h]
      have hsucc : t'.take (kf + 1 + 1) = t'.take (kf + 1) ++ [t'.get ⟨kf + 1, h⟩] := by
        rw [List.take_succ, List.getElem?_eq_getElem h]
        simp
      by_cases ha : isAlphaAZ (t'.get ⟨kf + 1, h⟩)
      · rw [if_pos ha]
        have hany : (t'.take (kf + 1 + 1)).any isAlphaAZ = true := by
          rw [hsucc, List.any_append]
          simp only [List.any_cons, List.any_nil, ha, Bool.or_false, Bool.or_true]
        rw [if_pos hany]
      · rw [if_neg ha]
        have ha' : isAlphaAZ (t'.get ⟨kf + 1, h⟩) = false := by simpa using ha
        have hany : (t'.take (kf + 1 + 1)).any isAlphaAZ = (t'.take (kf + 1)).any isAlphaAZ := by
          rw [hsucc, List.any_append]
          simp only [List.any_cons, List.any_nil, ha', Bool.or_false]
        rw [hany, hind]
    · rw [dif_neg h]
      have h1 : t'.take (kf + 1 + 1) = t' := List.take_of_length_le (by omega)
      have h2 : t'.take (kf + 1) = t' := List.take_of_length_le (by omega)
      rw [h1, hind, h2]

theorem matchAt_cons_ne (c : Char) (r : List Char) (h : ¬ c = '"') :
    matchAt (c :: r) = none := by
  simp [matchAt, matchG1, h]

theorem findMatchAux_none_append : ∀ (xs ys : List Char),
    (∀ c ∈ xs, ¬ c = '"') → findMatchAux ys = none → findMatchAux (xs ++ ys) = none
  | [], _, _, hys => hys
  | x :: xs, ys, h, hys => by
    have hx : ¬ x = '"' := h x (by simp)
    have ih := findMatchAux_none_append xs ys (fun c hc => h c (by simp [hc])) hys
    simp [findMatchAux, matchAt_cons_ne x _ hx, ih]

theorem matchG1_no_quote (r : List Char) (h : ∀ c ∈ r, ¬ c = '"') :
    matchG1 ('"' :: r) = none := by
  have hdw : r.dropWhile notQuote = [] :=
    List.dropWhile_eq_nil_iff.mpr (fun c hc => by simpa [notQuote] using h c hc)
  simp [matchG1, hdw]

theorem isC0_of_inB (c : Char) (h : inB c = true) (h1 : ¬ c = '[') (h2 : ¬ c = '{') :
    isC0 c = true := by
  simp only [inB, Bool.decide_and, Bool.and_eq_true, decide_eq_true_eq] at h
  have hq : inA c = true := by simpa using h.1
  have hw : pyWs c = false := by simpa using h.2
  simp only [inA, decide_eq_true_eq] at hq
  simp [isC0, h1, h2, hw]
  intro hcq
  exact hq (Or.inr (Or.inr (Or.inr hcq)))

theorem subLoop_nil : ∀ n : Nat, subLoop n [] = []
  | 0 => rfl
  | n + 1 => by simp [subLoop, findMatchAux]

theorem subBareValues_of_none (s : List Char) (h : findMatchAux s = none) :
    subBareValues s = s := by
  unfold subBareValues
  cases hl : s.length with
  | zero => rfl
  | succ n => simp [subLoop, h]

theorem findMatchAux_cons_none (c : Char) (rest : List Char)
    (h1 : matchAt (c :: rest) = none) (h2 : findMatchAux rest = none) :
    findMatchAux (c :: rest) = none := by
  rw [findMatchAux, h1, h2]
  rfl

theorem findMatchAux_cons_some (c : Char) (rest g1 g2 g3 r : List Char)
    (h1 : matchAt (c :: rest) = some (g1, g2, g3, r)) :
    findMatchAux (c :: rest) = some ([], g1, g2, g3, r) := by
  rw [findMatchAux, h1]

/-- C6 (amended): on a line of the canonical shape `"key":token␣d` — the
key free of quotes, the token nonempty with every character outside
`,`/`}`/`]`/`"`/whitespace and not starting with `[` or `{`, and the
terminator `d` being `,` or `}` (the regex does *not* accept `]`) — the
bare-value quoter wraps the token in quotes exactly when the token
contains an alphabetic character *after* its first character (so a purely
numeric token is never quoted, `1a` is quoted, but single-letter `x` and
letter-first `a1` are not). -/
theorem bare_value_quoter_characterization (k t : List Char) (d : Char)
    (hk : ∀ c ∈ k, ¬ c = '"') (ht0 : ¬ t = []) (ht : ∀ c ∈ t, inB c = true)
    (hh1 : ¬ t.head? = some '[') (hh2 : ¬ t.head? = some '{')
    (hd : d = ',' ∨ d = '}') :
    subBareValues ('"' :: k ++ '"' :: ':' :: t ++ [d]) =
      if (t.drop 1).any isAlphaAZ then
        '"' :: k ++ '"' :: ':' :: '"' :: t ++ '"' :: [d]
      else '"' :: k ++ '"' :: ':' :: t ++ [d] := by
  match t, ht0 with
  | t0 :: t', _ =>
  have htB : inB t0 = true := ht t0 (by simp)
  have hG1 := matchG1_canonical k t0 (t' ++ [d]) hk (not_pyWs_of_inB t0 htB)
  have hg1' : matchG1 ('"' :: (k ++ '"' :: ':' :: t0 :: (t' ++ [d]))) =
      some ('"' :: (k ++ ['"', ':']), t0 :: (t' ++ [d])) := by
    simpa using hG1
  have hC0 : isC0 t0 = true :=
    isC0_of_inB t0 htB (by simpa using hh1) (by simpa using hh2)
  have ht' : ∀ c ∈ t', inB c = true := fun c hc => ht c (by simp [hc])
  have hdA : inA d = false := by rcases hd with rfl | rfl <;> decide
  have htw := takeWhile_all_append inA t' d []
    (fun c hc => inA_of_inB c (ht' c hc)) hdA
  have htk := tryK_canonical t0 t' d ht' hd t'.length
  have htake : t'.take (t'.length + 1) = t' := List.take_of_length_le (by omega)
  rw [htake] at htk
  have hG23 : matchG2G3 (t0 :: (t' ++ [d])) =
      if t'.any isAlphaAZ then some (t0 :: t', [d], []) else none := by
    simp only [matchG2G3, hC0, if_pos rfl]
    have hlen : (List.takeWhile inA (t' ++ [d])).length = t'.length := by
      have heq : t' ++ [d] = t' ++ d :: [] := rfl
      rw [heq, htw.1]
    rw [hlen, htk]
    simp
  have hnq : ∀ c ∈ ':' :: t0 :: (t' ++ [d]), ¬ c = '"' := by
    intro c hc
    rcases List.mem_cons.mp hc with rfl | hc
    · decide
    rcases List.mem_cons.mp hc with rfl | hc
    · intro he
      rw [he] at htB
      exact absurd htB (by decide)
    rcases List.mem_append.mp hc with hc | hc
    · intro he
      have hcB := ht' c hc
      rw [he] at hcB
      exact absurd hcB (by decide)
    · simp only [List.mem_cons, List.not_mem_nil, or_false] at hc
      subst hc
      rcases hd with rfl | rfl <;> decide
  simp only [List.cons_append, List.append_assoc, List.drop_succ_cons, List.drop_zero]
  by_cases hany : t'.any isAlphaAZ
  · rw [if_pos hany]
    have hMA : matchAt ('"' :: (k ++ '"' :: ':' :: t0 :: (t' ++ [d]))) =
        some ('"' :: (k ++ ['"', ':']), t0 :: t', [d], []) := by
      simp only [matchAt, hg1', hG23, if_pos hany]
    have hfm := findMatchAux_cons_some '"' (k ++ '"' :: ':' :: t0 :: (t' ++ [d]))
      ('"' :: (k ++ ['"', ':'])) (t0 :: t') [d] [] hMA
    unfold subBareValues
    simp only [List.length_cons, subLoop, hfm, subLoop_nil]
    simp
  · rw [if_neg hany]
    have hMA : matchAt ('"' :: (k ++ '"' :: ':' :: t0 :: (t' ++ [d]))) = none := by
      simp only [matchAt, hg1', hG23, if_neg hany]
    have hrest1 : findMatchAux (':' :: t0 :: (t' ++ [d])) = none := by
      have h0 := findMatchAux_none_append (':' :: t0 :: (t' ++ [d])) [] hnq rfl
      simpa using h0
    have hrest2 : findMatchAux ('"' :: ':' :: t0 :: (t' ++ [d])) = none := by
      have hma : matchAt ('"' :: ':' :: t0 :: (t' ++ [d])) = none := by
        have hg1n : matchG1 ('"' :: (':' :: t0 :: (t' ++ [d]))) = none :=
          matchG1_no_quote (':' :: t0 :: (t' ++ [d])) hnq
        simp only [matchAt, hg1n]
      exact findMatchAux_cons_none '"' (':' :: t0 :: (t' ++ [d])) hma hrest1
    have hfm : findMatchAux ('"' :: (k ++ '"' :: ':' :: t0 :: (t' ++ [d]))) = none :=
      findMatchAux_cons_none '"' (k ++ '"' :: ':' :: t0 :: (t' ++ [d])) hMA
        (findMatchAux_none_append k ('"' :: ':' :: t0 :: (t' ++ [d])) hk hrest2)
    have hsub := subBareValues_of_none ('"' :: (k ++ '"' :: ':' :: t0 :: (t' ++ [d]))) hfm
    exact hsub

/-- C6 (witness): the spec's `"type": wall,` example under the amended
boundary (here in canonical no-space form). -/
theorem bare_value_quoter_characterization_witness :
    subBareValues ('"' :: "type".data ++ '"' :: ':' :: "wall".data ++ [',']) =
      (if ("wall".data.drop 1).any isAlphaAZ then
        '"' :: "type".data ++ '"' :: ':' :: '"' :: "wall".data ++ '"' :: [',']
      else '"' :: "type".data ++ '"' :: ':' :: "wall".data ++ [',']) :=
  bare_value_quoter_characterization "type".data "wall".data ','
    (by decide) (by decide) (by decide) (by decide) (by decide) (Or.inl rfl)

/-- C6 (counterexample): the claimed boundary fails in two ways — the
token `a1` contains an alphabetic character, does not start with `"`/`[`/
`{`, and is terminated by `,`, yet it is *not* quoted (the letter is not
after the first character); and a token terminated by `]` is never quoted.
The spec's own positive examples are reproduced through the full per-line
cleaning for contrast; the space after the colon survives cleaning, since
the source's space replacement is a no-op. -/
theorem bare_value_quoter_boundary_counterexample :
    subBareValues "\"n\": a1,".data = "\"n\": a1,".data ∧
    subBareValues "\"a\":ab]".data = "\"a\":ab]".data ∧
    cleanLine "\"n\": 1a,".data = "\"n\": \"1a\",".data ∧
    cleanLine "\"count\": 5,".data = "\"count\": 5,".data ∧
    cleanLine "\"type\": wall,".data = "\"type\": \"wall\",".data :=
  ⟨rfl, rfl, rfl, rfl, rfl⟩

/-! ## Claim C9: idempotence on the safe class — cleaning is the identity -/

theorem hasDoubleSlash_eq_false (t : List Char) (h : ∀ c ∈ t, ¬ c = '/') :
    hasDoubleSlash t = false := by
  induction t with
  | nil => rfl
  | cons c rest ih =>
    have hc : ¬ c = '/' := h c (by simp)
    simp only [hasDoubleSlash]
    rw [if_neg (fun hcon => hc hcon.1)]
    exact ih (fun c' hc' => h c' (by simp [hc']))

theorem stripComment_eq_self (l : List Char) (h : hasDoubleSlash l = false) :
    stripComment l = l := by
  simp [stripComment, h]

theorem map_eq_self_of (f : Char → Char) (l : List Char) (h : ∀ c ∈ l, f c = c) :
    l.map f = l := by
  induction l with
  | nil => rfl
  | cons c rest ih =>
    simp [h c (by simp), ih (fun c' hc' => h c' (by simp [hc']))]

theorem applyReplacements_eq_self (l : List Char)
    (h : ∀ c ∈ l, ¬ c = '﻿' ∧ ¬ c = ';' ∧ ¬ c = '\t' ∧ ¬ c = '\r' ∧
      ¬ c = '\n' ∧ ¬ c = ' ') :
    applyReplacements l = l := by
  have h1 : List.filter (fun c => ¬ c = '﻿') l = l :=
    List.filter_eq_self.mpr (fun c hc => by simp [(h c hc).1])
  have h2 : List.map (fun c => if c = ';' then ',' else c) l = l :=
    map_eq_self_of _ l (fun c hc => by simp [(h c hc).2.1])
  have h3 : List.map (fun c => if c = '\t' then ' ' else c) l = l :=
    map_eq_self_of _ l (fun c hc => by simp [(h c hc).2.2.1])
  have h4 : List.filter (fun c => ¬ c = '\r') l = l :=
    List.filter_eq_self.mpr (fun c hc => by simp [(h c hc).2.2.2.1])
  have h5 : List.map (fun c => if c = '\n' then ' ' else c) l = l :=
    map_eq_self_of _ l (fun c hc => by simp [(h c hc).2.2.2.2.1])
  have h6 : List.map (fun c => if c = ' ' then ' ' else c) l = l :=
    map_eq_self_of _ l (fun c hc => by by_cases hsp : c = ' ' <;> simp [hsp])
  have h7 : List.filter (fun c => ¬ c = ' ') l = l :=
    List.filter_eq_self.mpr (fun c hc => by simp [(h c hc).2.2.2.2.2])
  simp only [applyReplacements]
  rw [h1, h2, h3, h4, h5, h6, h7]

/-! Truncation never fires inside the rendered body. -/

theorem segOk_skip : ∀ (seg : List Char) (b : Bool), segOk seg b = true →
    ∀ (rest : List Char) (d : Int),
    truncateAux (seg ++ rest) b d = seg ++ truncateAux rest false d
  | [], b, h, rest, d => by
    cases b with
    | false => rfl
    | true => simp [segOk] at h
  | c :: seg', b, h, rest, d => by
    cases b with
    | true =>
      simp only [segOk] at h
      by_cases hc : c = '"'
      · rw [if_pos hc] at h
        simp [truncateAux, hc, segOk_skip seg' false h rest d]
      · rw [if_neg hc] at h
        simp [truncateAux, hc, segOk_skip seg' true h rest d]
    | false =>
      simp only [segOk] at h
      by_cases hc : c = '"'
      · rw [if_pos hc] at h
        simp [truncateAux, hc, segOk_skip seg' true h rest d]
      · rw [if_neg hc] at h
        by_cases hbr : c = '[' ∨ c = ']'
        · rw [if_pos hbr] at h
          exact absurd h (by simp)
        · rw [if_neg hbr] at h
          have hc1 : ¬ c = '[' := fun hh => hbr (Or.inl hh)
          have hc2 : ¬ c = ']' := fun hh => hbr (Or.inr hh)
          simp [truncateAux, hc, hc1, hc2, segOk_skip seg' false h rest d]

theorem segOk_append : ∀ (x : List Char) (b : Bool) (y : List Char),
    segOk x b = true → segOk y false = true → segOk (x ++ y) b = true
  | [], b, y, hx, hy => by
    cases b with
    | false => exact hy
    | true => simp [segOk] at hx
  | c :: x', b, y, hx, hy => by
    cases b with
    | true =>
      simp only [segOk] at hx ⊢
      by_cases hc : c = '"'
      · rw [if_pos hc] at hx ⊢
        exact segOk_append x' false y hx hy
      · rw [if_neg hc] at hx ⊢
        exact segOk_append x' true y hx hy
    | false =>
      simp only [segOk] at hx ⊢
      by_cases hc : c = '"'
      · rw [if_pos hc] at hx ⊢
        exact segOk_append x' true y hx hy
      · rw [if_neg hc] at hx ⊢
        by_cases hbr : c = '[' ∨ c = ']'
        · rw [if_pos hbr] at hx
          exact absurd hx (by simp)
        · rw [if_neg hbr] at hx ⊢
          exact segOk_append x' false y hx hy

theorem segOk_of_all (seg : List Char)
    (h : ∀ c ∈ seg, ¬ c = '"' ∧ ¬ c = '[' ∧ ¬ c = ']') : segOk seg false = true := by
  induction seg with
  | nil => rfl
  | cons c rest ih =>
    obtain ⟨h1, h2, h3⟩ := h c (by simp)
    simp only [segOk]
    rw [if_neg h1, if_neg (fun hh => hh.elim h2 h3)]
    exact ih (fun c' hc' => h c' (by simp [hc']))

theorem segOk_in_string : ∀ (s : List Char), (∀ c ∈ s, ¬ c = '"') →
    segOk (s ++ ['"']) true = true
  | [], _ => by simp [segOk]
  | c :: s', h => by
    have hc : ¬ c = '"' := h c (by simp)
    simp only [List.cons_append, segOk]
    rw [if_neg hc]
    exact segOk_in_string s' (fun c' hc' => h c' (by simp [hc']))

theorem segOk_string (s : List Char) (hs : ∀ c ∈ s, ¬ c = '"') :
    segOk ('"' :: s ++ ['"']) false = true := by
  simp only [List.cons_append, segOk, if_pos rfl]
  exact segOk_in_string s hs

/-! Character classes of the compact render. -/

theorem safeChar_spec (c : Char) (h : safeChar c = true) :
    0x20 ≤ c.toNat ∧ pyWs c = false ∧ ¬ c = '"' ∧ ¬ c = '\\' ∧ ¬ c = ':' ∧
    ¬ c = ';' ∧ ¬ c = '/' ∧ ¬ c = '[' ∧ ¬ c = ']' ∧ ¬ c = '{' ∧ ¬ c = '}' ∧
    ¬ c = ',' ∧ ¬ c = '﻿' ∧ ¬ c = '.' := by
  simp only [safeChar, Bool.decide_and, Bool.and_eq_true, decide_eq_true_eq] at h
  obtain ⟨h1, h2, h3⟩ := h
  refine ⟨h1, by simpa using h2, ?_⟩
  push_neg at h3
  exact ⟨h3.1, h3.2.1, h3.2.2.1, h3.2.2.2.1, h3.2.2.2.2.1, h3.2.2.2.2.2.1,
    h3.2.2.2.2.2.2.1, h3.2.2.2.2.2.2.2.1, h3.2.2.2.2.2.2.2.2.1,
    h3.2.2.2.2.2.2.2.2.2.1, h3.2.2.2.2.2.2.2.2.2.2.1, h3.2.2.2.2.2.2.2.2.2.2.2⟩

theorem not_pyWs_spec (c : Char) (h : pyWs c = false) :
    ¬ c = '\t' ∧ ¬ c = '\r' ∧ ¬ c = '\n' ∧ ¬ c = ' ' ∧ ¬ c = '\u00a0' := by
  refine ⟨?_, ?_, ?_, ?_, ?_⟩ <;> intro he <;> rw [he] at h <;> exact absurd h (by decide)

theorem isDigitC_ne (c : Char) (h : isDigitC c = true) :
    ¬ c = '/' ∧ ¬ c = '"' ∧ ¬ c = '\\' ∧ ¬ c = ';' ∧ ¬ c = '﻿' ∧ ¬ c = '\t' ∧
    ¬ c = '\r' ∧ ¬ c = '\n' ∧ ¬ c = ' ' ∧ ¬ c = '\u00a0' ∧ ¬ c = '[' ∧ ¬ c = ']' := by
  refine ⟨?_, ?_, ?_, ?_, ?_, ?_, ?_, ?_, ?_, ?_, ?_, ?_⟩ <;> intro he <;>
    rw [he] at h <;> exact absurd h (by decide)

theorem compactOk_cases (c : Char) (h : compactOk c = true) :
    safeChar c = true ∨ c = '"' ∨ c = ':' ∨ c = ',' ∨ c = '{' ∨ c = '}' ∨
    c = '[' ∨ c = ']' ∨ isDigitC c = true ∨ c = '-' := by
  exact of_decide_eq_true h

theorem compactOk_not_slash (c : Char) (h : compactOk c = true) : ¬ c = '/' := by
  rcases compactOk_cases c h with h | h | h | h | h | h | h | h | h | h
  · exact (safeChar_spec c h).2.2.2.2.2.2.1
  all_goals first
    | (subst h; decide)
    | (exact (isDigitC_ne c h).1)

theorem compactOk_repl (c : Char) (h : compactOk c = true) :
    ¬ c = '﻿' ∧ ¬ c = ';' ∧ ¬ c = '\t' ∧ ¬ c = '\r' ∧ ¬ c = '\n' ∧
    ¬ c = '\u00a0' ∧ ¬ c = ' ' := by
  rcases compactOk_cases c h with h | h | h | h | h | h | h | h | h | h
  · obtain ⟨_, hw, hs⟩ := safeChar_spec c h
    obtain ⟨hq, hbs, hcol, hsemi, hsl, hlb, hrb, hlc, hrc, hcm, hfe, hdot⟩ := hs
    obtain ⟨w1, w2, w3, w4, w5⟩ := not_pyWs_spec c hw
    exact ⟨hfe, hsemi, w1, w2, w3, w5, w4⟩
  all_goals first
    | (subst h; decide)
    | (obtain ⟨_, _, _, d4, d5, d6, d7, d8, d9, d10, _, _⟩ := isDigitC_ne c h
       exact ⟨d5, d4, d6, d7, d8, d10, d9⟩)

theorem compactOk_iff (c : Char) : compactOk c = true ↔
    (safeChar c = true ∨ c = '"' ∨ c = ':' ∨ c = ',' ∨ c = '{' ∨ c = '}' ∨
     c = '[' ∨ c = ']' ∨ isDigitC c = true ∨ c = '-') :=
  ⟨compactOk_cases c, fun h => decide_eq_true (by simpa using h)⟩

theorem digitChar_isDigit (d : Nat) (h : d < 10) :
    isDigitC (Char.ofNat (48 + d)) = true := by
  interval_cases d <;> decide

theorem natRepr_chars (n : Nat) : ∀ c ∈ natRepr n, isDigitC c = true := by
  intro c hc
  unfold natRepr at hc
  by_cases hn : n = 0
  · rw [if_pos hn] at hc
    simp only [List.mem_cons, List.not_mem_nil, or_false] at hc
    subst hc
    decide
  · rw [if_neg hn] at hc
    obtain ⟨d, hd, rfl⟩ := natReprAux_digits n n c hc
    exact digitChar_isDigit d hd

theorem intRepr_chars (i : Int) : ∀ c ∈ intRepr i, isDigitC c = true ∨ c = '-' := by
  intro c hc
  unfold intRepr at hc
  split_ifs at hc with hneg
  · rcases List.mem_cons.mp hc with rfl | hc2
    · right; rfl
    · left; exact natRepr_chars _ c hc2
  · left; exact natRepr_chars _ c hc

theorem safeList_mem (l : List (List (String × JValue))) (h : safeList l = true)
    {kvs : List (String × JValue)} (hm : kvs ∈ l) : safeObj kvs = true :=
  List.all_eq_true.mp h kvs hm

theorem safeObj_mem (kvs : List (String × JValue)) (h : safeObj kvs = true)
    {p : String × JValue} (hm : p ∈ kvs) :
    safeKey p.1 = true ∧ safeLeaf p.2 = true := by
  have h1 : kvs.all (fun p => safeKey p.1 ∧ safeLeaf p.2) = true := by
    have := of_decide_eq_true h
    exact this.1
  have := List.all_eq_true.mp h1 p hm
  simpa using this

theorem safeObj_nodup (kvs : List (String × JValue)) (h : safeObj kvs = true) :
    (kvs.map Prod.fst).Nodup := by
  have := of_decide_eq_true h
  exact this.2

theorem safeKey_spec (s : String) (h : safeKey s = true) :
    ¬ s.data = [] ∧ (∀ c ∈ s.data, safeChar c = true) ∧
    ¬ s = "privileged" ∧ ¬ s = "strict lua" ∧ ¬ s = "script" ∧ ¬ s = "scripts" := by
  have hp := of_decide_eq_true h
  obtain ⟨h1, h2, h3⟩ := hp
  push_neg at h3
  exact ⟨h1, List.all_eq_true.mp h2, h3.1, h3.2.1, h3.2.2.1, h3.2.2.2⟩

theorem safeLeaf_str (s : String) (h : safeLeaf (.str s) = true) :
    ∀ c ∈ s.data, safeChar c = true :=
  List.all_eq_true.mp (by simpa [safeLeaf] using h)

/-! Every character of the compact render is a `compactOk` character. -/

theorem renderLeaf_chars (v : JValue) (hv : safeLeaf v = true) :
    ∀ c ∈ renderLeaf v, compactOk c = true := by
  intro c hc
  cases v with
  | str s =>
    simp only [renderLeaf, List.mem_cons, List.mem_append, List.not_mem_nil,
      or_false, or_assoc] at hc
    rcases hc with rfl | hc | rfl
    · decide
    · exact (compactOk_iff c).mpr (Or.inl (safeLeaf_str s hv c hc))
    · decide
  | num i =>
    simp only [renderLeaf] at hc
    rcases intRepr_chars i c hc with hd | hd
    · exact (compactOk_iff c).mpr (by tauto)
    · subst hd
      decide
  | null => simp [safeLeaf] at hv
  | bool b => simp [safeLeaf] at hv
  | arr a => simp [safeLeaf] at hv
  | obj o => simp [safeLeaf] at hv

theorem renderPairS_chars (b : List Char) (hb : ∀ c ∈ b, compactOk c = true)
    (p : String × JValue) (hk : safeKey p.1 = true) (hv : safeLeaf p.2 = true) :
    ∀ c ∈ renderPairS b p, compactOk c = true := by
  intro c hc
  simp only [renderPairS, List.mem_cons, List.mem_append, or_assoc] at hc
  rcases hc with rfl | hc | rfl | rfl | hc | hc
  · decide
  · exact (compactOk_iff c).mpr (Or.inl ((safeKey_spec p.1 hk).2.1 c hc))
  · decide
  · decide
  · exact hb c hc
  · exact renderLeaf_chars p.2 hv c hc

theorem renderPairsS_chars (a b : List Char) (ha : ∀ c ∈ a, compactOk c = true)
    (hb : ∀ c ∈ b, compactOk c = true) :
    ∀ (kvs : List (String × JValue)),
    (∀ p ∈ kvs, safeKey p.1 = true ∧ safeLeaf p.2 = true) →
    ∀ c ∈ renderPairsS a b kvs, compactOk c = true
  | [], _, c, hc => by simp [renderPairsS] at hc
  | [p], hp, c, hc => by
    simp only [renderPairsS] at hc
    exact renderPairS_chars b hb p (hp p (by simp)).1 (hp p (by simp)).2 c hc
  | p :: q :: rest, hp, c, hc => by
    simp only [renderPairsS, List.mem_cons, List.mem_append, or_assoc] at hc
    rcases hc with hc | rfl | hc | hc
    · exact renderPairS_chars b hb p (hp p (by simp)).1 (hp p (by simp)).2 c hc
    · decide
    · exact ha c hc
    · exact renderPairsS_chars a b ha hb (q :: rest)
        (fun p' hp' => hp p' (by simp [hp'])) c hc

theorem renderObjS_chars (a b : List Char) (ha : ∀ c ∈ a, compactOk c = true)
    (hb : ∀ c ∈ b, compactOk c = true) (kvs : List (String × JValue))
    (h : safeObj kvs = true) : ∀ c ∈ renderObjS a b kvs, compactOk c = true := by
  intro c hc
  simp only [renderObjS, List.mem_cons, List.mem_append, List.not_mem_nil,
    or_false, or_assoc] at hc
  rcases hc with rfl | hc | rfl
  · decide
  · exact renderPairsS_chars a b ha hb kvs (fun p hp => safeObj_mem kvs h hp) c hc
  · decide

theorem renderObjsS_chars (a b : List Char) (ha : ∀ c ∈ a, compactOk c = true)
    (hb : ∀ c ∈ b, compactOk c = true) :
    ∀ (l : List (List (String × JValue))), safeList l = true →
    ∀ c ∈ renderObjsS a b l, compactOk c = true
  | [], _, c, hc => by simp [renderObjsS] at hc
  | [kvs], hl, c, hc => by
    simp only [renderObjsS] at hc
    exact renderObjS_chars a b ha hb kvs (safeList_mem [kvs] hl (by simp)) c hc
  | kvs :: q :: rest, hl, c, hc => by
    simp only [renderObjsS, List.mem_cons, List.mem_append, or_assoc] at hc
    rcases hc with hc | rfl | hc | hc
    · exact renderObjS_chars a b ha hb kvs (safeList_mem _ hl (by simp)) c hc
    · decide
    · exact ha c hc
    · have hl' : safeList (q :: rest) = true := by
        simp only [safeList, List.all_cons, Bool.and_eq_true] at hl ⊢
        exact hl.2
      exact renderObjsS_chars a b ha hb (q :: rest) hl' c hc

theorem renderArrS_chars (a b : List Char) (ha : ∀ c ∈ a, compactOk c = true)
    (hb : ∀ c ∈ b, compactOk c = true) (l : List (List (String × JValue)))
    (hl : safeList l = true) : ∀ c ∈ renderArrS a b l, compactOk c = true := by
  intro c hc
  simp only [renderArrS, List.mem_cons, List.mem_append, List.not_mem_nil,
    or_false, or_assoc] at hc
  rcases hc with rfl | hc | rfl
  · decide
  · exact renderObjsS_chars a b ha hb l hl c hc
  · decide

/-! The compact render walks through the truncation scanner without ever
closing a top-level bracket: `segOk` holds of every piece. -/

theorem segOk_renderLeaf (v : JValue) (hv : safeLeaf v = true) :
    segOk (renderLeaf v) false = true := by
  cases v with
  | str s =>
    have hs : ∀ c ∈ s.data, ¬ c = '"' :=
      fun c hc => (safeChar_spec c (safeLeaf_str s hv c hc)).2.2.1
    have h1 : renderLeaf (.str s) = '"' :: s.data ++ ['"'] := rfl
    rw [h1]
    exact segOk_string s.data hs
  | num i =>
    refine segOk_of_all (renderLeaf (.num i)) ?_
    intro c hc
    simp only [renderLeaf] at hc
    rcases intRepr_chars i c hc with hd | hd
    · obtain ⟨_, h2, _, _, _, _, _, _, _, _, h11, h12⟩ := isDigitC_ne c hd
      exact ⟨h2, h11, h12⟩
    · subst hd
      exact ⟨by decide, by decide, by decide⟩
  | null => simp [safeLeaf] at hv
  | bool b => simp [safeLeaf] at hv
  | arr a => simp [safeLeaf] at hv
  | obj o => simp [safeLeaf] at hv

theorem segOk_pairC (p : String × JValue) (hk : safeKey p.1 = true)
    (hv : safeLeaf p.2 = true) : segOk (renderPairS [] p) false = true := by
  have hkey : ∀ c ∈ p.1.data, ¬ c = '"' :=
    fun c hc => (safeChar_spec c ((safeKey_spec p.1 hk).2.1 c hc)).2.2.1
  have h1 : renderPairS [] p = ('"' :: p.1.data ++ ['"']) ++ (':' :: renderLeaf p.2) := by
    simp [renderPairS]
  rw [h1]
  refine segOk_append _ false _ (segOk_string p.1.data hkey) ?_
  show segOk (':' :: renderLeaf p.2) false = true
  simp only [segOk]
  rw [if_neg (by decide), if_neg (by decide)]
  exact segOk_renderLeaf p.2 hv

theorem segOk_pairsC : ∀ (kvs : List (String × JValue)),
    (∀ p ∈ kvs, safeKey p.1 = true ∧ safeLeaf p.2 = true) →
    segOk (renderPairsS [] [] kvs) false = true
  | [], _ => by decide
  | [p], hp => segOk_pairC p (hp p (by simp)).1 (hp p (by simp)).2
  | p :: q :: rest, hp => by
    have h1 : renderPairsS [] [] (p :: q :: rest) =
        renderPairS [] p ++ (',' :: renderPairsS [] [] (q :: rest)) := by
      simp [renderPairsS]
    rw [h1]
    refine segOk_append _ false _
      (segOk_pairC p (hp p (by simp)).1 (hp p (by simp)).2) ?_
    show segOk (',' :: renderPairsS [] [] (q :: rest)) false = true
    simp only [segOk]
    rw [if_neg (by decide), if_neg (by decide)]
    exact segOk_pairsC (q :: rest) (fun p' hp' => hp p' (by simp [hp']))

theorem segOk_objC (kvs : List (String × JValue)) (h : safeObj kvs = true) :
    segOk (renderObjS [] [] kvs) false = true := by
  have h1 : renderObjS [] [] kvs = '{' :: (renderPairsS [] [] kvs ++ ['}']) := by
    simp [renderObjS]
  rw [h1]
  simp only [segOk]
  rw [if_neg (by decide), if_neg (by decide)]
  exact segOk_append _ false _
    (segOk_pairsC kvs (fun p hp => safeObj_mem kvs h hp)) (by decide)

theorem segOk_objsC : ∀ (l : List (List (String × JValue))), safeList l = true →
    segOk (renderObjsS [] [] l) false = true
  | [], _ => by decide
  | [kvs], hl => segOk_objC kvs (safeList_mem [kvs] hl (by simp))
  | kvs :: q :: rest, hl => by
    have h1 : renderObjsS [] [] (kvs :: q :: rest) =
        renderObjS [] [] kvs ++ (',' :: renderObjsS [] [] (q :: rest)) := by
      simp [renderObjsS]
    rw [h1]
    refine segOk_append _ false _
      (segOk_objC kvs (safeList_mem _ hl (by simp))) ?_
    show segOk (',' :: renderObjsS [] [] (q :: rest)) false = true
    simp only [segOk]
    rw [if_neg (by decide), if_neg (by decide)]
    have hl' : safeList (q :: rest) = true := by
      simp only [safeList, List.all_cons, Bool.and_eq_true] at hl ⊢
      exact hl.2
    exact segOk_objsC (q :: rest) hl'

/-- Bracket truncation leaves the compact strict render unchanged: the
closing bracket of the top-level array is the first (and last) truncation
point. -/
theorem truncate_renderArrC (l : List (List (String × JValue)))
    (hl : safeList l = true) : truncateTopArray (renderArrC l) = renderArrC l := by
  have hbody : segOk (renderObjsS [] [] l) false = true := segOk_objsC l hl
  have h1 : renderArrC l = '[' :: (renderObjsS [] [] l ++ [']']) := by
    simp [renderArrC, renderArrS]
  rw [h1]
  show truncateAux ('[' :: (renderObjsS [] [] l ++ [']'])) false 0 = _
  simp only [truncateAux]
  rw [if_neg (by decide), if_pos trivial]
  rw [segOk_skip (renderObjsS [] [] l) false hbody [']'] (0 + 1)]
  have h2 : truncateAux [']'] false (0 + 1) = [']'] := by decide
  rw [h2]
  rw [if_neg (by decide)]

/-! The bare-value regex finds no match anywhere in the compact render. -/

theorem pyWs_eq_false_of_digit (c : Char) (h : isDigitC c = true) : pyWs c = false := by
  simp only [isDigitC, Bool.decide_and, Bool.and_eq_true, decide_eq_true_eq] at h
  by_contra hw
  rw [Bool.not_eq_false] at hw
  simp only [pyWs, decide_eq_true_eq] at hw
  rcases hw with rfl|rfl|rfl|rfl|rfl|rfl|rfl|rfl|rfl|rfl|rfl|rfl|rfl|hr|rfl|rfl|rfl|rfl|rfl
  all_goals first
    | (revert h; decide)
    | (exact absurd (le_trans hr.1 h.2) (by decide))

theorem isAlphaAZ_eq_false_of_digit (c : Char) (h : isDigitC c = true) :
    isAlphaAZ c = false := by
  simp only [isDigitC, Bool.decide_and, Bool.and_eq_true, decide_eq_true_eq] at h
  by_contra ha
  rw [Bool.not_eq_false] at ha
  simp only [isAlphaAZ, decide_eq_true_eq] at ha
  rcases ha with h1 | h1 <;> exact absurd (le_trans h1.1 h.2) (by decide)

theorem inA_of_digit (c : Char) (h : isDigitC c = true) : inA c = true := by
  simp only [inA, decide_eq_true_eq]
  rintro (rfl | rfl | rfl | rfl) <;> revert h <;> decide

theorem natRepr_ne_nil (n : Nat) : ¬ natRepr n = [] := by
  unfold natRepr
  by_cases hn : n = 0
  · rw [if_pos hn]; simp
  · rw [if_neg hn]
    cases n with
    | zero => exact absurd rfl hn
    | succ m =>
      simp only [natReprAux]
      rw [if_neg hn]
      simp

theorem intRepr_ne_nil (i : Int) : ¬ intRepr i = [] := by
  unfold intRepr
  split_ifs with h
  · simp
  · exact natRepr_ne_nil _

theorem attemptAt_digits_none (c0 : Char) (ds : List Char)
    (hd : ∀ c ∈ ds, isDigitC c = true ∨ c = '-') (d : Char) (t' : List Char)
    (hterm : d = ',' ∨ d = '}') :
    ∀ k, k ≤ ds.length → attemptAt c0 (ds ++ d :: t') k = none := by
  intro k hk
  have hhead : ∃ a s, (ds ++ d :: t').drop k = a :: s ∧ isAlphaAZ a = false := by
    rcases Nat.eq_or_lt_of_le hk with heq | hlt
    · subst heq
      refine ⟨d, t', ?_, ?_⟩
      · rw [List.drop_append_of_le_length le_rfl]
        simp
      · rcases hterm with rfl | rfl <;> decide
    · have h1 : (ds ++ d :: t').drop k = ds.drop k ++ d :: t' :=
        List.drop_append_of_le_length (le_of_lt hlt)
      have h2 : ds.get ⟨k, hlt⟩ :: ds.drop (k + 1) = ds.drop k := by
        rw [List.get_eq_getElem]
        exact List.getElem_cons_drop ds k hlt
      refine ⟨ds.get ⟨k, hlt⟩, ds.drop (k + 1) ++ d :: t', ?_, ?_⟩
      · rw [h1, ← h2]
        rfl
      · rcases hd (ds.get ⟨k, hlt⟩) (ds.get_mem k hlt) with hdig | hmin
        · exact isAlphaAZ_eq_false_of_digit _ hdig
        · rw [hmin]; decide
  obtain ⟨a, s, hds, hna⟩ := hhead
  unfold attemptAt
  rw [hds]
  by_cases hall : ((ds ++ d :: t').take k).all inA = true
  · rw [if_pos hall]
    simp [hna]
  · rw [if_neg hall]

theorem tryK_digits_none (c0 : Char) (ds : List Char)
    (hd : ∀ c ∈ ds, isDigitC c = true ∨ c = '-') (d : Char) (t' : List Char)
    (hterm : d = ',' ∨ d = '}') :
    ∀ k, k ≤ ds.length → tryK c0 (ds ++ d :: t') k = none
  | 0, hk => by
    rw [tryK]
    exact attemptAt_digits_none c0 ds hd d t' hterm 0 hk
  | k + 1, hk => by
    rw [tryK, attemptAt_digits_none c0 ds hd d t' hterm (k + 1) hk]
    exact tryK_digits_none c0 ds hd d t' hterm k (by omega)

theorem matchG2G3_digits (ds : List Char) (hne : ¬ ds = [])
    (hd : ∀ c ∈ ds, isDigitC c = true ∨ c = '-') (d : Char) (t' : List Char)
    (hterm : d = ',' ∨ d = '}') :
    matchG2G3 (ds ++ d :: t') = none := by
  obtain ⟨c0, ds', rfl⟩ := List.exists_cons_of_ne_nil hne
  have hd' : ∀ c ∈ ds', isDigitC c = true ∨ c = '-' := fun c hc => hd c (by simp [hc])
  have hAd : inA d = false := by rcases hterm with rfl | rfl <;> decide
  have hdsA : ∀ c ∈ ds', inA c = true := by
    intro c hc
    rcases hd' c hc with hdig | hmin
    · exact inA_of_digit c hdig
    · rw [hmin]; decide
  have hK : (ds' ++ d :: t').takeWhile inA = ds' :=
    (takeWhile_all_append inA ds' d t' hdsA hAd).1
  rw [List.cons_append]
  simp only [matchG2G3]
  by_cases h0 : isC0 c0 = true
  · rw [if_pos h0, hK]
    exact tryK_digits_none c0 ds' hd' d t' hterm ds'.length le_rfl
  · rw [if_neg h0]

theorem matchG2G3_quote (r : List Char) : matchG2G3 ('"' :: r) = none := by
  simp only [matchG2G3]
  rw [if_neg (by decide : ¬ isC0 '"' = true)]

theorem fqOk_nil : fqOk [] := trivial

theorem fqOk_intro (s : List Char)
    (h : ∀ c2 r2, s.dropWhile notQuote = c2 :: r2 →
      ∀ c3 r3, r2.dropWhile pyWs = c3 :: r3 → ¬ c3 = ':') : fqOk s := by
  unfold fqOk
  split
  · trivial
  next c2 r2 hdq =>
    split
    · trivial
    next c3 r3 hdw => exact h c2 r2 hdq c3 r3 hdw

theorem fqOk_elim (s : List Char) (c2 : Char) (r2 : List Char) (c3 : Char)
    (r3 : List Char) (h : fqOk s) (h1 : s.dropWhile notQuote = c2 :: r2)
    (h2 : r2.dropWhile pyWs = c3 :: r3) : ¬ c3 = ':' := by
  unfold fqOk at h
  simp only [h1] at h
  simp only [h2] at h
  exact h

theorem fqOk_cons (c : Char) (x : List Char) (hc : ¬ c = '"') (h : fqOk x) :
    fqOk (c :: x) := by
  have hcq : notQuote c = true := by simp [notQuote, hc]
  refine fqOk_intro _ ?_
  intro c2 r2 h1 c3 r3 h2
  rw [List.dropWhile_cons, if_pos hcq] at h1
  exact fqOk_elim x c2 r2 c3 r3 h h1 h2

theorem fqOk_append : ∀ (seg : List Char), (∀ c ∈ seg, ¬ c = '"') →
    ∀ (x : List Char), fqOk x → fqOk (seg ++ x)
  | [], _, _, h => h
  | c :: rest, hseg, x, h =>
    fqOk_cons c _ (hseg c (by simp))
      (fqOk_append rest (fun c' hc' => hseg c' (by simp [hc'])) x h)

theorem fqOk_quote_head (d : Char) (r : List Char) (hws : pyWs d = false)
    (hne : ¬ d = ':') : fqOk ('"' :: d :: r) := by
  refine fqOk_intro _ ?_
  intro c2 r2 h1 c3 r3 h2
  rw [List.dropWhile_cons, if_neg (by simp [notQuote] : ¬ notQuote '"' = true)] at h1
  obtain ⟨rfl, rfl⟩ : c2 = '"' ∧ r2 = d :: r := by
    constructor <;> [exact (List.cons.injEq .. ▸ h1.symm).1; exact (List.cons.injEq .. ▸ h1.symm).2]
  rw [List.dropWhile_cons, if_neg (by simp [hws])] at h2
  obtain ⟨rfl, rfl⟩ : c3 = d ∧ r3 = r := by
    constructor <;> [exact (List.cons.injEq .. ▸ h2.symm).1; exact (List.cons.injEq .. ▸ h2.symm).2]
  exact hne

theorem matchG1_quote_fqOk (r : List Char) (h : fqOk r) : matchG1 ('"' :: r) = none := by
  simp only [matchG1]
  rw [if_pos trivial]
  split
  · rfl
  next c2 r2 hdq =>
    split
    · split
      · rfl
      next c3 r3 hdw =>
        split
        next hc3 => exact absurd hc3 (fqOk_elim r c2 r2 c3 r3 h hdq hdw)
        · rfl
    · rfl

theorem matchAt_quote_fqOk (r : List Char) (h : fqOk r) : matchAt ('"' :: r) = none := by
  simp only [matchAt, matchG1_quote_fqOk r h]

theorem matchAt_key_anchor (k : List Char) (t0 : Char) (trest : List Char)
    (hk : ∀ c ∈ k, ¬ c = '"') (ht0 : pyWs t0 = false)
    (hG : matchG2G3 (t0 :: trest) = none) :
    matchAt ('"' :: k ++ '"' :: ':' :: t0 :: trest) = none := by
  simp only [matchAt, matchG1_canonical k t0 trest hk ht0, hG]

theorem fqOk_render_leaf (v : JValue) (hv : safeLeaf v = true) (d : Char)
    (t' : List Char) (hd : d = ',' ∨ d = '}') (hfq : fqOk (d :: t')) :
    fqOk (renderLeaf v ++ d :: t') := by
  cases v with
  | str s =>
    have hshape : renderLeaf (.str s) ++ d :: t' = '"' :: (s.data ++ '"' :: d :: t') := by
      simp [renderLeaf]
    rw [hshape]
    cases hsd : s.data with
    | nil =>
      exact fqOk_quote_head '"' (d :: t') (by decide) (by decide)
    | cons s0 sr =>
      have hsc : safeChar s0 = true := safeLeaf_str s hv s0 (by simp [hsd])
      have h2 : ('"' : Char) :: ((s0 :: sr) ++ '"' :: d :: t') =
          '"' :: s0 :: (sr ++ '"' :: d :: t') := by simp
      rw [h2]
      exact fqOk_quote_head s0 _ (safeChar_spec s0 hsc).2.1
        (safeChar_spec s0 hsc).2.2.2.2.1
  | num i =>
    have hch : ∀ c ∈ intRepr i, ¬ c = '"' := by
      intro c hc
      rcases intRepr_chars i c hc with hdg | hm
      · exact (isDigitC_ne c hdg).2.1
      · subst hm; decide
    exact fqOk_append (intRepr i) hch (d :: t') hfq
  | null => simp [safeLeaf] at hv
  | bool b => simp [safeLeaf] at hv
  | arr a => simp [safeLeaf] at hv
  | obj o => simp [safeLeaf] at hv

theorem noMatch_leaf (v : JValue) (hv : safeLeaf v = true) (d : Char)
    (t' : List Char) (hd : d = ',' ∨ d = '}')
    (ht : findMatchAux (d :: t') = none) (hfq : fqOk (d :: t')) :
    findMatchAux (renderLeaf v ++ d :: t') = none := by
  cases v with
  | str s =>
    have hs : ∀ c ∈ s.data, safeChar c = true := safeLeaf_str s hv
    have hnq : ∀ c ∈ s.data, ¬ c = '"' := fun c hc => (safeChar_spec c (hs c hc)).2.2.1
    have hshape : renderLeaf (.str s) ++ d :: t' = '"' :: (s.data ++ '"' :: d :: t') := by
      simp [renderLeaf]
    rw [hshape]
    refine findMatchAux_cons_none _ _ ?_ ?_
    · refine matchAt_quote_fqOk _ ?_
      refine fqOk_append s.data hnq _ ?_
      refine fqOk_quote_head d t' ?_ ?_
      · rcases hd with rfl | rfl <;> decide
      · rcases hd with rfl | rfl <;> decide
    · refine findMatchAux_none_append s.data _ hnq ?_
      refine findMatchAux_cons_none _ _ ?_ ht
      exact matchAt_quote_fqOk _ hfq
  | num i =>
    have hch : ∀ c ∈ intRepr i, ¬ c = '"' := by
      intro c hc
      rcases intRepr_chars i c hc with hdg | hm
      · exact (isDigitC_ne c hdg).2.1
      · subst hm; decide
    exact findMatchAux_none_append (intRepr i) (d :: t') hch ht
  | null => simp [safeLeaf] at hv
  | bool b => simp [safeLeaf] at hv
  | arr a => simp [safeLeaf] at hv
  | obj o => simp [safeLeaf] at hv

theorem noMatch_pair (p : String × JValue) (hk : safeKey p.1 = true)
    (hv : safeLeaf p.2 = true) (d : Char) (t' : List Char) (hd : d = ',' ∨ d = '}')
    (ht : findMatchAux (d :: t') = none) (hfq : fqOk (d :: t')) :
    findMatchAux (renderPairS [] p ++ d :: t') = none := by
  obtain ⟨key, v⟩ := p
  have hknq : ∀ c ∈ key.data, ¬ c = '"' :=
    fun c hc => (safeChar_spec c ((safeKey_spec key hk).2.1 c hc)).2.2.1
  obtain ⟨t0, trest, hleaf, ht0ws, hG⟩ :
      ∃ t0 trest, renderLeaf v ++ d :: t' = t0 :: trest ∧ pyWs t0 = false ∧
        matchG2G3 (t0 :: trest) = none := by
    cases v with
    | str s =>
      refine ⟨'"', s.data ++ '"' :: d :: t', by simp [renderLeaf], by decide, ?_⟩
      exact matchG2G3_quote _
    | num i =>
      obtain ⟨c0, r0, h0⟩ := List.exists_cons_of_ne_nil (intRepr_ne_nil i)
      have hch : ∀ c ∈ intRepr i, isDigitC c = true ∨ c = '-' := intRepr_chars i
      refine ⟨c0, r0 ++ d :: t', by simp [renderLeaf, h0], ?_, ?_⟩
      · have hc0 : c0 ∈ intRepr i := by simp [h0]
        rcases hch c0 hc0 with hdg | hm
        · exact pyWs_eq_false_of_digit c0 hdg
        · subst hm; decide
      · have h2 : c0 :: (r0 ++ d :: t') = (c0 :: r0) ++ d :: t' := by simp
        rw [h2, ← h0]
        exact matchG2G3_digits (intRepr i) (intRepr_ne_nil i) hch d t' hd
    | null => simp [safeLeaf] at hv
    | bool b => simp [safeLeaf] at hv
    | arr a => simp [safeLeaf] at hv
    | obj o => simp [safeLeaf] at hv
  have hshape : renderPairS [] (key, v) ++ d :: t' =
      '"' :: (key.data ++ '"' :: ':' :: (renderLeaf v ++ d :: t')) := by
    simp [renderPairS]
  rw [hshape]
  refine findMatchAux_cons_none _ _ ?_ ?_
  · rw [hleaf]
    exact matchAt_key_anchor key.data t0 trest hknq ht0ws hG
  · refine findMatchAux_none_append key.data _ hknq ?_
    refine findMatchAux_cons_none _ _ ?_ ?_
    · refine matchAt_quote_fqOk _ ?_
      refine fqOk_cons ':' _ (by decide) ?_
      exact fqOk_render_leaf v hv d t' hd hfq
    · refine findMatchAux_cons_none _ _ (matchAt_cons_ne ':' _ (by decide)) ?_
      exact noMatch_leaf v hv d t' hd ht hfq

theorem fqOk_render_pairs (kvs : List (String × JValue))
    (hsafe : ∀ p ∈ kvs, safeKey p.1 = true ∧ safeLeaf p.2 = true)
    (t : List Char) (hfq : fqOk t) : fqOk (renderPairsS [] [] kvs ++ t) := by
  cases kvs with
  | nil => exact hfq
  | cons p rest =>
    obtain ⟨k0, kt, hk0⟩ :=
      List.exists_cons_of_ne_nil (safeKey_spec p.1 (hsafe p (by simp)).1).1
    have hsc : safeChar k0 = true :=
      (safeKey_spec p.1 (hsafe p (by simp)).1).2.1 k0 (by simp [hk0])
    have hshape : ∃ Y, renderPairsS [] [] (p :: rest) ++ t = '"' :: k0 :: Y := by
      cases rest with
      | nil =>
        exact ⟨kt ++ '"' :: ':' :: (renderLeaf p.2 ++ t),
          by simp [renderPairsS, renderPairS, hk0]⟩
      | cons q rest' =>
        exact ⟨kt ++ '"' :: ':' :: (renderLeaf p.2 ++
            ',' :: (renderPairsS [] [] (q :: rest') ++ t)),
          by simp [renderPairsS, renderPairS, hk0]⟩
    obtain ⟨Y, hY⟩ := hshape
    rw [hY]
    exact fqOk_quote_head k0 Y (safeChar_spec k0 hsc).2.1
      (safeChar_spec k0 hsc).2.2.2.2.1

theorem noMatch_pairs : ∀ (kvs : List (String × JValue)),
    (∀ p ∈ kvs, safeKey p.1 = true ∧ safeLeaf p.2 = true) →
    ∀ (d : Char) (t' : List Char), (d = ',' ∨ d = '}') →
    findMatchAux (d :: t') = none → fqOk (d :: t') →
    findMatchAux (renderPairsS [] [] kvs ++ d :: t') = none
  | [], _, d, t', _, ht, _ => ht
  | [p], hp, d, t', hd, ht, hfq =>
    noMatch_pair p (hp p (by simp)).1 (hp p (by simp)).2 d t' hd ht hfq
  | p :: q :: rest, hp, d, t', hd, ht, hfq => by
    have hrec := noMatch_pairs (q :: rest) (fun p' hp' => hp p' (by simp [hp']))
      d t' hd ht hfq
    have h1 : renderPairsS [] [] (p :: q :: rest) ++ d :: t' =
        renderPairS [] p ++ ',' :: (renderPairsS [] [] (q :: rest) ++ d :: t') := by
      simp [renderPairsS]
    rw [h1]
    refine noMatch_pair p (hp p (by simp)).1 (hp p (by simp)).2 ',' _ (Or.inl rfl) ?_ ?_
    · exact findMatchAux_cons_none _ _ (matchAt_cons_ne ',' _ (by decide)) hrec
    · exact fqOk_cons ',' _ (by decide) (fqOk_render_pairs (q :: rest)
        (fun p' hp' => hp p' (by simp [hp'])) (d :: t') hfq)

theorem noMatch_obj (kvs : List (String × JValue)) (hobj : safeObj kvs = true)
    (t : List Char) (ht : findMatchAux t = none) (hfq : fqOk t) :
    findMatchAux (renderObjS [] [] kvs ++ t) = none := by
  have h1 : renderObjS [] [] kvs ++ t = '{' :: (renderPairsS [] [] kvs ++ '}' :: t) := by
    simp [renderObjS]
  rw [h1]
  refine findMatchAux_cons_none _ _ (matchAt_cons_ne '{' _ (by decide)) ?_
  refine noMatch_pairs kvs (fun p hp => safeObj_mem kvs hobj hp) '}' t (Or.inr rfl) ?_ ?_
  · exact findMatchAux_cons_none _ _ (matchAt_cons_ne '}' _ (by decide)) ht
  · exact fqOk_cons '}' t (by decide) hfq

theorem fqOk_render_objs : ∀ (l : List (List (String × JValue))), safeList l = true →
    ∀ (t : List Char), fqOk t → fqOk (renderObjsS [] [] l ++ t)
  | [], _, _, hfq => hfq
  | [kvs], hl, t, hfq => by
    have hobj : safeObj kvs = true := safeList_mem [kvs] hl (by simp)
    have h1 : renderObjsS [] [] [kvs] ++ t = '{' :: (renderPairsS [] [] kvs ++ '}' :: t) := by
      simp [renderObjsS, renderObjS]
    rw [h1]
    refine fqOk_cons '{' _ (by decide) ?_
    exact fqOk_render_pairs kvs (fun p hp => safeObj_mem kvs hobj hp) ('}' :: t)
      (fqOk_cons '}' t (by decide) hfq)
  | kvs :: q :: rest, hl, t, hfq => by
    have hobj : safeObj kvs = true := safeList_mem (kvs :: q :: rest) hl (by simp)
    have hl' : safeList (q :: rest) = true := by
      simp only [safeList, List.all_cons, Bool.and_eq_true] at hl ⊢
      exact hl.2
    have h1 : renderObjsS [] [] (kvs :: q :: rest) ++ t =
        '{' :: (renderPairsS [] [] kvs ++ '}' :: ',' ::
          (renderObjsS [] [] (q :: rest) ++ t)) := by
      simp [renderObjsS, renderObjS]
    rw [h1]
    refine fqOk_cons '{' _ (by decide) ?_
    refine fqOk_render_pairs kvs (fun p hp => safeObj_mem kvs hobj hp) _ ?_
    refine fqOk_cons '}' _ (by decide) ?_
    refine fqOk_cons ',' _ (by decide) ?_
    exact fqOk_render_objs (q :: rest) hl' t hfq

theorem noMatch_objs : ∀ (l : List (List (String × JValue))), safeList l = true →
    ∀ (t : List Char), findMatchAux t = none → fqOk t →
    findMatchAux (renderObjsS [] [] l ++ t) = none
  | [], _, _, ht, _ => ht
  | [kvs], hl, t, ht, hfq => noMatch_obj kvs (safeList_mem [kvs] hl (by simp)) t ht hfq
  | kvs :: q :: rest, hl, t, ht, hfq => by
    have hl' : safeList (q :: rest) = true := by
      simp only [safeList, List.all_cons, Bool.and_eq_true] at hl ⊢
      exact hl.2
    have hrec := noMatch_objs (q :: rest) hl' t ht hfq
    have h1 : renderObjsS [] [] (kvs :: q :: rest) ++ t =
        renderObjS [] [] kvs ++ ',' :: (renderObjsS [] [] (q :: rest) ++ t) := by
      simp [renderObjsS]
    rw [h1]
    refine noMatch_obj kvs (safeList_mem _ hl (by simp)) _ ?_ ?_
    · exact findMatchAux_cons_none _ _ (matchAt_cons_ne ',' _ (by decide)) hrec
    · exact fqOk_cons ',' _ (by decide) (fqOk_render_objs (q :: rest) hl' t hfq)

theorem findMatchAux_renderArrC (l : List (List (String × JValue)))
    (hl : safeList l = true) : findMatchAux (renderArrC l) = none := by
  have h1 : renderArrC l = '[' :: (renderObjsS [] [] l ++ [']']) := by
    simp [renderArrC, renderArrS]
  rw [h1]
  refine findMatchAux_cons_none _ _ (matchAt_cons_ne '[' _ (by decide)) ?_
  refine noMatch_objs l hl [']'] ?_ ?_
  · exact findMatchAux_cons_none _ _ (matchAt_cons_ne ']' _ (by decide)) rfl
  · exact fqOk_cons ']' [] (by decide) fqOk_nil

theorem subBareValues_renderArrC (l : List (List (String × JValue)))
    (hl : safeList l = true) : subBareValues (renderArrC l) = renderArrC l :=
  subBareValues_of_none _ (findMatchAux_renderArrC l hl)

theorem cleanLine_renderArrC (l : List (List (String × JValue)))
    (hl : safeList l = true) : cleanLine (renderArrC l) = renderArrC l := by
  have hch : ∀ c ∈ renderArrC l, compactOk c = true :=
    renderArrS_chars [] [] (by simp) (by simp) l hl
  have h1 : stripComment (renderArrC l) = renderArrC l :=
    stripComment_eq_self _ (hasDoubleSlash_eq_false _
      (fun c hc => compactOk_not_slash c (hch c hc)))
  have h2 : subBareValues (renderArrC l) = renderArrC l :=
    subBareValues_renderArrC l hl
  have h3 : applyReplacements (renderArrC l) = renderArrC l := by
    refine applyReplacements_eq_self _ ?_
    intro c hc
    obtain ⟨r1, r2, r3, r4, r5, r6, _⟩ := compactOk_repl c (hch c hc)
    exact ⟨r1, r2, r3, r4, r5, r6⟩
  rw [cleanLine, h1, h2, h3]

/-! Parser adequacy: `loads` decodes a rendered safe object list back to
the value it came from, for any JSON-whitespace separators. -/

theorem skipWs_cons_head (c : Char) (x : List Char) (h : jsonWs c = false) :
    skipWs (c :: x) = c :: x := by
  simp [skipWs, List.dropWhile_cons, h]

theorem skipWs_append : ∀ (w : List Char), (∀ c ∈ w, jsonWs c = true) →
    ∀ (x : List Char), skipWs (w ++ x) = skipWs x
  | [], _, _ => rfl
  | c :: w', hw, x => by
    simp only [List.cons_append, skipWs, List.dropWhile_cons, hw c (by simp), if_true]
    exact skipWs_append w' (fun c' hc' => hw c' (by simp [hc'])) x

theorem parseStrAux_safe : ∀ (s : List Char), (∀ c ∈ s, safeChar c = true) →
    ∀ (rest acc : List Char),
    parseStrAux (s ++ '"' :: rest) acc = some (String.mk (acc.reverse ++ s), rest)
  | [], _, rest, acc => by
    show parseStrAux ('"' :: rest) acc = _
    rw [parseStrAux.eq_def]
    simp only []
    rw [if_pos trivial]
    simp
  | c :: s', hs, rest, acc => by
    obtain ⟨h20, hws, hq, hbs, _⟩ := safeChar_spec c (hs c (by simp))
    have hih := parseStrAux_safe s' (fun c' hc' => hs c' (by simp [hc'])) rest (c :: acc)
    rw [List.cons_append, parseStrAux.eq_def]
    simp only []
    rw [if_neg hq, if_neg hbs, if_neg (by omega : ¬ c.toNat < 0x20), hih]
    simp

theorem jsonWs_eq_false_of_digit (c : Char) (h : isDigitC c = true) :
    jsonWs c = false := by
  by_contra hw
  rw [Bool.not_eq_false] at hw
  simp only [jsonWs, decide_eq_true_eq] at hw
  rcases hw with rfl | rfl | rfl | rfl <;> revert h <;> decide

theorem isDigitC_ne_more (c : Char) (h : isDigitC c = true) :
    ¬ c = '-' ∧ ¬ c = '.' ∧ ¬ c = 'e' ∧ ¬ c = 'E' ∧ ¬ c = ',' ∧ ¬ c = '}' ∧
    ¬ c = '{' ∧ ¬ c = ':' ∧ ¬ c = 't' ∧ ¬ c = 'f' ∧ ¬ c = 'n' := by
  refine ⟨?_, ?_, ?_, ?_, ?_, ?_, ?_, ?_, ?_, ?_, ?_⟩ <;> intro he <;>
    rw [he] at h <;> exact absurd h (by decide)

theorem natReprAux_zero : ∀ fuel, natReprAux fuel 0 = []
  | 0 => rfl
  | fuel + 1 => by simp [natReprAux]

theorem natReprAux_succ_ne (fuel n : Nat) (hn : ¬ n = 0) :
    natReprAux (fuel + 1) n =
      natReprAux fuel (n / 10) ++ [Char.ofNat (48 + n % 10)] := by
  rw [natReprAux, if_neg hn]

theorem digit_char_val (m : Nat) (h : m < 10) :
    (Char.ofNat (48 + m)).toNat - 48 = m := by
  interval_cases m <;> decide

theorem natReprAux_foldl : ∀ (fuel n : Nat), n ≤ fuel → ∀ (acc : Nat),
    (natReprAux fuel n).foldl (fun a d => a * 10 + (d.toNat - 48)) acc =
      if n = 0 then acc else acc * 10 ^ (natReprAux fuel n).length + n
  | 0, n, hle, acc => by
    have hn : n = 0 := by omega
    subst hn
    rfl
  | fuel + 1, n, hle, acc => by
    by_cases hn : n = 0
    · subst hn
      rw [natReprAux_zero]
      simp
    · rw [if_neg hn, natReprAux_succ_ne fuel n hn]
      rw [List.foldl_append]
      have hih := natReprAux_foldl fuel (n / 10) (by omega) acc
      by_cases h10 : n / 10 = 0
      · rw [h10, natReprAux_zero] at hih ⊢
        simp only [List.foldl_nil] at hih ⊢
        simp only [List.foldl_cons, List.foldl_nil, List.length_append,
          List.length_nil, List.length_cons]
        rw [digit_char_val (n % 10) (by omega)]
        have hlt : n < 10 := by omega
        have hmod : n % 10 = n := by omega
        rw [hmod]
        ring_nf
      · rw [if_neg h10] at hih
        rw [hih]
        simp only [List.foldl_cons, List.foldl_nil, List.length_append,
          List.length_cons, List.length_nil]
        rw [digit_char_val (n % 10) (by omega)]
        have e1 : (acc * 10 ^ (natReprAux fuel (n / 10)).length + n / 10) * 10 + n % 10 =
            acc * 10 ^ ((natReprAux fuel (n / 10)).length + (0 + 1)) +
              (n / 10 * 10 + n % 10) := by
          ring
        rw [e1]
        have hmod : n / 10 * 10 + n % 10 = n := by omega
        rw [hmod]

theorem natReprAux_head_ne_zero : ∀ (fuel n : Nat), ¬ n = 0 → n ≤ fuel →
    ∃ d ds, natReprAux fuel n = d :: ds ∧ ¬ d = '0' ∧ isDigitC d = true
  | 0, n, hn, hle => absurd (by omega : n = 0) hn
  | fuel + 1, n, hn, hle => by
    rw [natReprAux_succ_ne fuel n hn]
    by_cases h10 : n / 10 = 0
    · rw [h10, natReprAux_zero]
      refine ⟨Char.ofNat (48 + n % 10), [], by simp, ?_, ?_⟩
      · have hmod : n % 10 = n := by omega
        rw [hmod]
        have hb1 : 1 ≤ n := by omega
        have hb2 : n ≤ 9 := by omega
        interval_cases n <;> decide
      · exact digitChar_isDigit (n % 10) (by omega)
    · obtain ⟨d, ds, heq, hne, hdig⟩ :=
        natReprAux_head_ne_zero fuel (n / 10) h10 (by omega)
      exact ⟨d, ds ++ [Char.ofNat (48 + n % 10)], by rw [heq]; rfl, hne, hdig⟩

theorem parseNat_natRepr (n : Nat) (d : Char) (t' : List Char)
    (hd : isDigitC d = false) :
    parseNat (natRepr n ++ d :: t') = some (n, d :: t') := by
  by_cases hn : n = 0
  · subst hn
    have h0 : natRepr 0 = ['0'] := rfl
    rw [h0]
    simp [parseNat]
  · obtain ⟨c0, ds, heq, hne0, hdig0⟩ := natReprAux_head_ne_zero n n hn le_rfl
    have hrepr : natRepr n = c0 :: ds := by rw [natRepr, if_neg hn, heq]
    rw [hrepr]
    simp only [List.cons_append, parseNat]
    rw [if_neg hne0, if_pos hdig0]
    have hdsdig : ∀ c ∈ ds, isDigitC c = true := by
      intro c hc
      apply natRepr_chars n
      rw [hrepr]
      simp [hc]
    have htk := takeWhile_all_append isDigitC ds d t' hdsdig hd
    rw [htk.1, htk.2]
    have hfold := natReprAux_foldl n n le_rfl 0
    rw [if_neg hn, heq] at hfold
    rw [hfold]
    simp

theorem parseNum_intRepr (i : Int) (d : Char) (t' : List Char)
    (hd : d = ',' ∨ d = '}') :
    parseNum (intRepr i ++ d :: t') = some (i, d :: t') := by
  have hddig : isDigitC d = false := by rcases hd with rfl | rfl <;> decide
  have hcond : ((d :: t').head?.any (fun c => c = '.' ∨ c = 'e' ∨ c = 'E')) = false := by
    rcases hd with rfl | rfl <;> rfl
  have hdtail : numTail i (d :: t') = some (i, d :: t') := by
    rw [numTail, if_neg (by rw [hcond]; exact Bool.false_ne_true)]
  by_cases hneg : i < 0
  · have hrepr : intRepr i = '-' :: natRepr i.natAbs := by rw [intRepr, if_pos hneg]
    rw [hrepr]
    simp only [List.cons_append, parseNum]
    rw [if_pos trivial, parseNat_natRepr i.natAbs d t' hddig]
    show numTail (-(i.natAbs : Int)) (d :: t') = some (i, d :: t')
    have habs : -(i.natAbs : Int) = i := by omega
    rw [habs]
    exact hdtail
  · obtain ⟨c0, ds, hnr⟩ := List.exists_cons_of_ne_nil (natRepr_ne_nil i.toNat)
    have hrepr : intRepr i = natRepr i.toNat := by rw [intRepr, if_neg hneg]
    have hc0dig : isDigitC c0 = true := by
      apply natRepr_chars i.toNat
      rw [hnr]
      simp
    rw [hrepr, hnr]
    simp only [List.cons_append, parseNum]
    rw [if_neg (isDigitC_ne_more c0 hc0dig).1]
    rw [show c0 :: (ds ++ d :: t') = (c0 :: ds) ++ d :: t' from rfl, ← hnr,
      parseNat_natRepr i.toNat d t' hddig]
    show numTail ((i.toNat : Int)) (d :: t') = some (i, d :: t')
    have htn : ((i.toNat : Int)) = i := Int.toNat_of_nonneg (by omega)
    rw [htn]
    exact hdtail

theorem parseP_skip (n : Nat) (mode : PMode) (w : List Char)
    (hw : ∀ c ∈ w, jsonWs c = true) (x : List Char) :
    parseP n mode (w ++ x) = parseP n mode x := by
  cases n with
  | zero => rfl
  | succ m =>
    cases mode with
    | val =>
      rw [parseP.eq_def]
      conv_rhs => rw [parseP.eq_def]
      simp only []
      rw [skipWs_append w hw x]
    | arrLoop acc =>
      rw [parseP.eq_def]
      conv_rhs => rw [parseP.eq_def]
      simp only []
      rw [skipWs_append w hw x]
    | objLoop acc =>
      rw [parseP.eq_def]
      conv_rhs => rw [parseP.eq_def]
      simp only []
      rw [skipWs_append w hw x]

theorem parseP_leaf (v : JValue) (hv : safeLeaf v = true) (d : Char) (t' : List Char)
    (hd : d = ',' ∨ d = '}') (n : Nat) :
    parseP (n + 1) .val (renderLeaf v ++ d :: t') = some (v, d :: t') := by
  cases v with
  | str s =>
    have hshape : renderLeaf (.str s) ++ d :: t' = '"' :: (s.data ++ '"' :: d :: t') := by
      simp [renderLeaf]
    rw [hshape, parseP.eq_def]
    simp only []
    rw [skipWs_cons_head '"' _ (by decide)]
    simp only []
    rw [if_pos trivial]
    rw [parseStrAux_safe s.data (safeLeaf_str s hv) (d :: t') []]
    rfl
  | num i =>
    obtain ⟨c0, r0, h0⟩ := List.exists_cons_of_ne_nil (intRepr_ne_nil i)
    have hc0 : isDigitC c0 = true ∨ c0 = '-' :=
      intRepr_chars i c0 (by rw [h0]; simp)
    have hnws : jsonWs c0 = false := by
      rcases hc0 with hdig | hm
      · exact jsonWs_eq_false_of_digit c0 hdig
      · rw [hm]; decide
    have hne : ¬ c0 = '"' ∧ ¬ c0 = '[' ∧ ¬ c0 = '{' ∧ ¬ c0 = 't' ∧ ¬ c0 = 'f' ∧
        ¬ c0 = 'n' := by
      rcases hc0 with hdig | hm
      · exact ⟨(isDigitC_ne c0 hdig).2.1,
          (isDigitC_ne c0 hdig).2.2.2.2.2.2.2.2.2.2.1,
          (isDigitC_ne_more c0 hdig).2.2.2.2.2.2.1,
          (isDigitC_ne_more c0 hdig).2.2.2.2.2.2.2.2.1,
          (isDigitC_ne_more c0 hdig).2.2.2.2.2.2.2.2.2.1,
          (isDigitC_ne_more c0 hdig).2.2.2.2.2.2.2.2.2.2⟩
      · subst hm
        exact ⟨by decide, by decide, by decide, by decide, by decide, by decide⟩
    have hshape : renderLeaf (.num i) ++ d :: t' = c0 :: (r0 ++ d :: t') := by
      simp [renderLeaf, h0]
    rw [hshape, parseP.eq_def]
    simp only []
    rw [skipWs_cons_head c0 _ hnws]
    simp only []
    rw [if_neg hne.1, if_neg hne.2.1, if_neg hne.2.2.1, if_neg hne.2.2.2.1,
      if_neg hne.2.2.2.2.1, if_neg hne.2.2.2.2.2]
    have hx : c0 :: (r0 ++ d :: t') = intRepr i ++ d :: t' := by
      rw [h0]
      rfl
    rw [hx, parseNum_intRepr i d t' hd]
    rfl
  | null => simp [safeLeaf] at hv
  | bool b => simp [safeLeaf] at hv
  | arr a => simp [safeLeaf] at hv
  | obj o => simp [safeLeaf] at hv

theorem dictSet_not_mem : ∀ (acc : List (String × JValue)) (k : String) (v : JValue),
    (∀ q ∈ acc, ¬ q.1 = k) → dictSet k v acc = acc ++ [(k, v)]
  | [], _, _, _ => rfl
  | (k', v') :: rest, k, v, h => by
    have hne : ¬ k' = k := h (k', v') (by simp)
    simp only [dictSet]
    rw [if_neg hne, dictSet_not_mem rest k v (fun q hq => h q (by simp [hq]))]
    rfl

theorem parseP_objLoop_step (b : List Char) (hb : ∀ c ∈ b, jsonWs c = true)
    (key : String) (v : JValue) (hk : safeKey key = true) (hv : safeLeaf v = true)
    (acc : List (String × JValue)) (d : Char) (t' : List Char) (hd : d = ',' ∨ d = '}')
    (m : Nat) :
    parseP (m + 2) (.objLoop acc) (renderPairS b (key, v) ++ d :: t') =
      (if d = ',' then parseP (m + 1) (.objLoop (dictSet key v acc)) t'
       else some (.obj (dictSet key v acc), t')) := by
  have hkeysafe : ∀ c ∈ key.data, safeChar c = true := (safeKey_spec key hk).2.1
  have hdws : jsonWs d = false := by rcases hd with rfl | rfl <;> decide
  have hshape : renderPairS b (key, v) ++ d :: t' =
      '"' :: (key.data ++ '"' :: (':' :: (b ++ (renderLeaf v ++ d :: t')))) := by
    simp [renderPairS]
  rw [hshape, parseP.eq_def]
  simp only []
  rw [skipWs_cons_head '"' _ (by decide)]
  simp only []
  rw [if_neg (by decide : ¬ ('"' : Char) = '}'), if_pos trivial]
  rw [parseStrAux_safe key.data hkeysafe (':' :: (b ++ (renderLeaf v ++ d :: t'))) []]
  simp only [List.reverse_nil, List.nil_append]
  rw [skipWs_cons_head ':' _ (by decide)]
  simp only []
  rw [if_pos trivial]
  rw [parseP_skip (m + 1) .val b hb (renderLeaf v ++ d :: t')]
  rw [parseP_leaf v hv d t' hd m]
  simp only []
  rw [skipWs_cons_head d _ hdws]
  simp only []
  by_cases hcomma : d = ','
  · rw [if_pos hcomma, if_pos hcomma]
  · rw [if_neg hcomma, if_neg hcomma]
    have hbr : d = '}' := by tauto
    rw [if_pos hbr]

theorem parseP_objLoop (a b : List Char) (ha : ∀ c ∈ a, jsonWs c = true)
    (hb : ∀ c ∈ b, jsonWs c = true) :
    ∀ (kvs : List (String × JValue)), ¬ kvs = [] →
    (∀ p ∈ kvs, safeKey p.1 = true ∧ safeLeaf p.2 = true) →
    (kvs.map Prod.fst).Nodup →
    ∀ (acc : List (String × JValue)), (∀ p ∈ kvs, ∀ q ∈ acc, ¬ q.1 = p.1) →
    ∀ (rest : List Char) (n : Nat), kvs.length + 2 ≤ n →
    parseP n (.objLoop acc) (renderPairsS a b kvs ++ '}' :: rest) =
      some (.obj (acc ++ kvs), rest)
  | [], hne, _, _, _, _, _, _, _ => absurd rfl hne
  | [p], _, hsafe, _, acc, hdisj, rest, n, hn => by
    obtain ⟨m, rfl⟩ : ∃ m, n = m + 2 := ⟨n - 2, by omega⟩
    obtain ⟨key, v⟩ := p
    have h1 : renderPairsS a b [(key, v)] ++ '}' :: rest =
        renderPairS b (key, v) ++ '}' :: rest := rfl
    rw [h1, parseP_objLoop_step b hb key v (hsafe (key, v) (by simp)).1
      (hsafe (key, v) (by simp)).2 acc '}' rest (Or.inr rfl) m]
    rw [if_neg (by decide : ¬ ('}' : Char) = ',')]
    rw [dictSet_not_mem acc key v (fun q hq => hdisj (key, v) (by simp) q hq)]
  | p :: q :: rest', _, hsafe, hnodup, acc, hdisj, rest, n, hn => by
    obtain ⟨m, rfl⟩ : ∃ m, n = m + 2 := ⟨n - 2, by omega⟩
    obtain ⟨key, v⟩ := p
    have hshape : renderPairsS a b ((key, v) :: q :: rest') ++ '}' :: rest =
        renderPairS b (key, v) ++
          ',' :: (a ++ (renderPairsS a b (q :: rest') ++ '}' :: rest)) := by
      simp [renderPairsS]
    rw [hshape, parseP_objLoop_step b hb key v (hsafe (key, v) (by simp)).1
      (hsafe (key, v) (by simp)).2 acc ',' _ (Or.inl rfl) m]
    rw [if_pos rfl]
    rw [parseP_skip (m + 1) (.objLoop (dictSet key v acc)) a ha _]
    have hacc : dictSet key v acc = acc ++ [(key, v)] :=
      dictSet_not_mem acc key v (fun q' hq' => hdisj (key, v) (by simp) q' hq')
    rw [hacc]
    have hnodup2 : (key :: (q :: rest').map Prod.fst).Nodup := by simpa using hnodup
    have hkey_notin : key ∉ (q :: rest').map Prod.fst := (List.nodup_cons.mp hnodup2).1
    have hdisj' : ∀ p' ∈ q :: rest', ∀ q' ∈ acc ++ [(key, v)], ¬ q'.1 = p'.1 := by
      intro p' hp' q' hq'
      rcases List.mem_append.mp hq' with hq1 | hq2
      · exact hdisj p' (by simp [hp']) q' hq1
      · have hq3 : q' = (key, v) := by simpa using hq2
        subst hq3
        intro he
        apply hkey_notin
        rw [show key = p'.1 from he]
        exact List.mem_map_of_mem Prod.fst hp'
    rw [parseP_objLoop a b ha hb (q :: rest') (by simp)
      (fun p' hp' => hsafe p' (by simp [hp'])) (List.nodup_cons.mp hnodup2).2
      (acc ++ [(key, v)]) hdisj' rest (m + 1)
      (by simp only [List.length_cons] at hn ⊢; omega)]
    simp

theorem parseP_obj (a b : List Char) (ha : ∀ c ∈ a, jsonWs c = true)
    (hb : ∀ c ∈ b, jsonWs c = true) (kvs : List (String × JValue))
    (hobj : safeObj kvs = true) (rest : List Char) :
    ∀ n, kvs.length + 3 ≤ n →
    parseP n .val (renderObjS a b kvs ++ rest) = some (.obj kvs, rest) := by
  intro n hn
  obtain ⟨m, rfl⟩ : ∃ m, n = m + 1 := ⟨n - 1, by omega⟩
  have hshape : renderObjS a b kvs ++ rest =
      '{' :: (renderPairsS a b kvs ++ '}' :: rest) := by
    simp [renderObjS]
  rw [hshape, parseP.eq_def]
  simp only []
  rw [skipWs_cons_head '{' _ (by decide)]
  simp only []
  rw [if_neg (by decide : ¬ ('{' : Char) = '"'), if_neg (by decide : ¬ ('{' : Char) = '['),
    if_pos trivial]
  cases kvs with
  | nil =>
    have h2 : renderPairsS a b [] ++ '}' :: rest = '}' :: rest := rfl
    rw [h2]
    obtain ⟨m', rfl⟩ : ∃ m', m = m' + 1 := ⟨m - 1, by omega⟩
    rw [parseP.eq_def]
    simp only []
    rw [skipWs_cons_head '}' _ (by decide)]
    simp only []
    rw [if_pos trivial]
    rfl
  | cons p rest' =>
    rw [parseP_objLoop a b ha hb (p :: rest') (by simp)
      (fun p' hp' => safeObj_mem _ hobj hp') (safeObj_nodup _ hobj) [] (by simp)
      rest m (by omega)]
    simp

theorem foldr_fuel_pos : ∀ (l : List (List (String × JValue))),
    1 ≤ l.foldr (fun kvs f => kvs.length + 4 + f) 1
  | [] => le_rfl
  | kvs :: rest => by
    simp only [List.foldr_cons]
    have := foldr_fuel_pos rest
    omega

theorem parseP_arrLoop (a b : List Char) (ha : ∀ c ∈ a, jsonWs c = true)
    (hb : ∀ c ∈ b, jsonWs c = true) :
    ∀ (l : List (List (String × JValue))), ¬ l = [] → safeList l = true →
    ∀ (acc : List JValue) (rest : List Char) (n : Nat),
    l.foldr (fun kvs f => kvs.length + 4 + f) 1 ≤ n →
    parseP n (.arrLoop acc) (renderObjsS a b l ++ ']' :: rest) =
      some (.arr (acc ++ l.map .obj), rest)
  | [], hne, _, _, _, _, _ => absurd rfl hne
  | [kvs], _, hl, acc, rest, n, hn => by
    have hpos := foldr_fuel_pos [kvs]
    obtain ⟨m, rfl⟩ : ∃ m, n = m + 1 := ⟨n - 1, by omega⟩
    have hobj : safeObj kvs = true := safeList_mem [kvs] hl (by simp)
    have hshape2 : renderObjS a b kvs ++ ']' :: rest =
        '{' :: (renderPairsS a b kvs ++ '}' :: ']' :: rest) := by
      simp [renderObjS]
    have hshape : renderObjsS a b [kvs] ++ ']' :: rest =
        '{' :: (renderPairsS a b kvs ++ '}' :: ']' :: rest) := by
      simp [renderObjsS, renderObjS]
    rw [hshape, parseP.eq_def]
    simp only []
    rw [skipWs_cons_head '{' _ (by decide)]
    simp only []
    rw [if_neg (by decide : ¬ ('{' : Char) = ']')]
    rw [← hshape2, parseP_obj a b ha hb kvs hobj (']' :: rest) m
      (by simp only [List.foldr_cons, List.foldr_nil] at hn; omega)]
    simp only []
    rw [skipWs_cons_head ']' _ (by decide)]
    simp only []
    rw [if_neg (by decide : ¬ (']' : Char) = ','), if_pos trivial]
    simp
  | kvs :: q :: rest', _, hl, acc, rest, n, hn => by
    have hpos := foldr_fuel_pos (kvs :: q :: rest')
    obtain ⟨m, rfl⟩ : ∃ m, n = m + 1 := ⟨n - 1, by omega⟩
    have hobj : safeObj kvs = true := safeList_mem _ hl (by simp)
    have hl' : safeList (q :: rest') = true := by
      simp only [safeList, List.all_cons, Bool.and_eq_true] at hl ⊢
      exact hl.2
    have hshape2 : renderObjS a b kvs ++
        ',' :: (a ++ (renderObjsS a b (q :: rest') ++ ']' :: rest)) =
        '{' :: (renderPairsS a b kvs ++ '}' ::
          ',' :: (a ++ (renderObjsS a b (q :: rest') ++ ']' :: rest))) := by
      simp [renderObjS]
    have hshape : renderObjsS a b (kvs :: q :: rest') ++ ']' :: rest =
        '{' :: (renderPairsS a b kvs ++ '}' ::
          ',' :: (a ++ (renderObjsS a b (q :: rest') ++ ']' :: rest))) := by
      simp [renderObjsS, renderObjS]
    rw [hshape, parseP.eq_def]
    simp only []
    rw [skipWs_cons_head '{' _ (by decide)]
    simp only []
    rw [if_neg (by decide : ¬ ('{' : Char) = ']')]
    have hrec_pos := foldr_fuel_pos (q :: rest')
    rw [← hshape2, parseP_obj a b ha hb kvs hobj _ m
      (by simp only [List.foldr_cons] at hn; omega)]
    simp only []
    rw [skipWs_cons_head ',' _ (by decide)]
    simp only []
    rw [if_pos trivial]
    rw [parseP_skip m (PMode.arrLoop (acc ++ [JValue.obj kvs])) a ha
      (renderObjsS a b (q :: rest') ++ ']' :: rest)]
    rw [parseP_arrLoop a b ha hb (q :: rest') (by simp) hl'
      (acc ++ [JValue.obj kvs]) rest m
      (by simp only [List.foldr_cons] at hn ⊢; omega)]
    simp

theorem renderPairsS_length_ge (a b : List Char) :
    ∀ (kvs : List (String × JValue)), kvs.length ≤ (renderPairsS a b kvs).length
  | [] => le_rfl
  | [p] => by
    simp [renderPairsS, renderPairS]
  | p :: q :: rest => by
    have hih := renderPairsS_length_ge a b (q :: rest)
    simp only [renderPairsS, renderPairS, List.length_cons, List.length_append] at hih ⊢
    omega

theorem fuelF_le (a b : List Char) :
    ∀ (l : List (List (String × JValue))),
    l.foldr (fun kvs f => kvs.length + 4 + f) 1 ≤ 2 * (renderObjsS a b l).length + 5
  | [] => by simp
  | [kvs] => by
    have hp := renderPairsS_length_ge a b kvs
    simp only [List.foldr_cons, List.foldr_nil, renderObjsS, renderObjS,
      List.length_cons, List.length_append]
    omega
  | kvs :: q :: rest => by
    have hih := fuelF_le a b (q :: rest)
    have hp := renderPairsS_length_ge a b kvs
    simp only [List.foldr_cons, renderObjsS, renderObjS, List.length_cons,
      List.length_append] at hih ⊢
    omega

theorem loads_renderArrS (a b : List Char) (ha : ∀ c ∈ a, jsonWs c = true)
    (hb : ∀ c ∈ b, jsonWs c = true) (l : List (List (String × JValue)))
    (hl : safeList l = true) :
    loads (renderArrS a b l) = some (.arr (l.map .obj)) := by
  cases l with
  | nil => rfl
  | cons kvs0 rest0 =>
    have hshape : renderArrS a b (kvs0 :: rest0) =
        '[' :: (renderObjsS a b (kvs0 :: rest0) ++ ']' :: []) := by
      simp [renderArrS]
    have hparse : ∀ n,
        ((kvs0 :: rest0).foldr (fun kvs f => kvs.length + 4 + f) 1) + 1 ≤ n →
        parseP n .val (renderArrS a b (kvs0 :: rest0)) =
          some (.arr ((kvs0 :: rest0).map .obj), []) := by
      intro n hn
      obtain ⟨m, rfl⟩ : ∃ m, n = m + 1 := ⟨n - 1, by omega⟩
      rw [hshape, parseP.eq_def]
      simp only []
      rw [skipWs_cons_head '[' _ (by decide)]
      simp only []
      rw [if_neg (by decide : ¬ ('[' : Char) = '"'), if_pos trivial]
      rw [parseP_arrLoop a b ha hb (kvs0 :: rest0) (by simp) hl [] [] m (by omega)]
      simp
    have hlenA : (renderArrS a b (kvs0 :: rest0)).length =
        (renderObjsS a b (kvs0 :: rest0)).length + 2 := by
      rw [hshape]
      simp
    have hbound := fuelF_le a b (kvs0 :: rest0)
    unfold loads
    rw [hparse (2 * (renderArrS a b (kvs0 :: rest0)).length + 2) (by omega)]
    simp [skipWs]

/-! `json.dumps` of a safe object list is exactly the render with the
default separators `", "` and `": "`. -/

theorem jdump_leaf (v : JValue) (hv : safeLeaf v = true) : jdump v = renderLeaf v := by
  cases v with
  | str s =>
    have h : ∀ c ∈ s.data, 0x20 ≤ c.toNat ∧ ¬ c = '"' ∧ ¬ c = '\\' := by
      intro c hc
      obtain ⟨h1, _, h3, h4, _⟩ := safeChar_spec c (safeLeaf_str s hv c hc)
      exact ⟨h1, h3, h4⟩
    show encStr s.data = renderLeaf (.str s)
    rw [encStr_literal s.data h]
    simp [renderLeaf]
  | num i => rfl
  | null => simp [safeLeaf] at hv
  | bool b => simp [safeLeaf] at hv
  | arr a => simp [safeLeaf] at hv
  | obj o => simp [safeLeaf] at hv

theorem encStr_safe_key (k : String) (hk : safeKey k = true) :
    encStr k.data = '"' :: (k.data ++ ['"']) := by
  refine encStr_literal k.data ?_
  intro c hc
  obtain ⟨h1, _, h3, h4, _⟩ := safeChar_spec c ((safeKey_spec k hk).2.1 c hc)
  exact ⟨h1, h3, h4⟩

theorem jdumpMembers_safe : ∀ (kvs : List (String × JValue)),
    (∀ p ∈ kvs, safeKey p.1 = true ∧ safeLeaf p.2 = true) →
    jdumpMembers kvs = renderPairsS [' '] [' '] kvs
  | [], _ => rfl
  | [(k, v)], hp => by
    show encStr k.data ++ ':' :: ' ' :: jdump v = _
    rw [encStr_safe_key k (hp (k, v) (by simp)).1, jdump_leaf v (hp (k, v) (by simp)).2]
    simp [renderPairsS, renderPairS]
  | (k, v) :: q :: rest, hp => by
    show encStr k.data ++ ':' :: ' ' :: jdump v ++ ',' :: ' ' :: jdumpMembers (q :: rest) = _
    rw [encStr_safe_key k (hp (k, v) (by simp)).1, jdump_leaf v (hp (k, v) (by simp)).2,
      jdumpMembers_safe (q :: rest) (fun p' hp' => hp p' (by simp [hp']))]
    simp [renderPairsS, renderPairS]

theorem jdump_obj_safe (kvs : List (String × JValue)) (hobj : safeObj kvs = true) :
    jdump (.obj kvs) = renderObjS [' '] [' '] kvs := by
  show '{' :: jdumpMembers kvs ++ ['}'] = _
  rw [jdumpMembers_safe kvs (fun p hp => safeObj_mem kvs hobj hp)]
  simp [renderObjS]

theorem jdumpElems_safe : ∀ (l : List (List (String × JValue))), safeList l = true →
    jdumpElems (l.map .obj) = renderObjsS [' '] [' '] l
  | [], _ => rfl
  | [kvs], hl => by
    show jdump (.obj kvs) = _
    rw [jdump_obj_safe kvs (safeList_mem [kvs] hl (by simp))]
    simp [renderObjsS]
  | kvs :: q :: rest, hl => by
    have hl' : safeList (q :: rest) = true := by
      simp only [safeList, List.all_cons, Bool.and_eq_true] at hl ⊢
      exact hl.2
    show jdump (.obj kvs) ++ ',' :: ' ' :: jdumpElems ((q :: rest).map .obj) = _
    rw [jdump_obj_safe kvs (safeList_mem _ hl (by simp)), jdumpElems_safe (q :: rest) hl']
    simp [renderObjsS]

theorem jdump_safe (l : List (List (String × JValue))) (hl : safeList l = true) :
    jdump (.arr (l.map .obj)) = renderArrS [' '] [' '] l := by
  show '[' :: jdumpElems (l.map .obj) ++ [']'] = _
  rw [jdumpElems_safe l hl]
  simp [renderArrS]

/-! Postprocessing does not touch a safe object list. -/

theorem processObj_safe (kvs : List (String × JValue)) (h : safeObj kvs = true) :
    processObj kvs = .ok kvs := by
  have hsafe : ∀ p ∈ kvs, safeKey p.1 = true ∧ safeLeaf p.2 = true :=
    fun p hp => safeObj_mem kvs h hp
  have hpriv : hasKey "privileged" kvs = false := by
    refine List.any_eq_false.mpr ?_
    intro p hp
    simpa using (safeKey_spec p.1 (hsafe p hp).1).2.2.1
  have hscript : hasKey "script" kvs = false := by
    refine List.any_eq_false.mpr ?_
    intro p hp
    simpa using (safeKey_spec p.1 (hsafe p hp).1).2.2.2.2.1
  have hscripts : hasKey "scripts" kvs = false := by
    refine List.any_eq_false.mpr ?_
    intro p hp
    simpa using (safeKey_spec p.1 (hsafe p hp).1).2.2.2.2.2
  have her : eraseKey "strict lua" kvs = kvs := by
    refine List.filter_eq_self.mpr ?_
    intro p hp
    simpa using (safeKey_spec p.1 (hsafe p hp).1).2.2.2.1
  simp [processObj, hpriv, hscript, hscripts, her]

theorem processList_safe : ∀ (l : List (List (String × JValue))), safeList l = true →
    processList (l.map .obj) = .ok l
  | [], _ => rfl
  | kvs :: rest, hl => by
    have h1 := processObj_safe kvs (safeList_mem _ hl (by simp))
    have hl' : safeList rest = true := by
      simp only [safeList, List.all_cons, Bool.and_eq_true] at hl
      exact hl.2
    have h2 := processList_safe rest hl'
    show processList (JValue.obj kvs :: rest.map JValue.obj) = .ok (kvs :: rest)
    simp [processList, h1, h2, Bind.bind, Except.bind]

theorem postprocess_safe (l : List (List (String × JValue)))
    (hl : safeList l = true) :
    postprocess (.arr (l.map .obj)) = .ok (.arr (l.map .obj)) := by
  show (processList (l.map .obj)).map (fun l' => JValue.arr (l'.map .obj)) = _
  rw [processList_safe l hl]
  rfl

/-- C9 (amended): idempotence fails on arbitrary strict JSON — the bare
token of a boolean value is wrapped in quotes (see the counterexample) —
but holds at least on the class of object lists whose keys and string
values use only inert characters (no whitespace, no structural or
replaced characters; a sufficient restriction, not claimed necessary)
and whose leaves are such strings or integers, with no legacy key: for
such a list the compact strict render passes through every cleaning
stage unchanged, decodes to exactly the original array of objects, and
the emitted output is `json.dumps` of that same value, so output and
input decode to the same keys, values and order. -/
theorem strict_json_idempotent_on_safe (l : List (List (String × JValue)))
    (h : safeList l = true) :
    optimize_json [renderArrC l] = .ok (jdump (.arr (l.map .obj))) ∧
    loads (jdump (.arr (l.map .obj))) = some (.arr (l.map .obj)) ∧
    loads (renderArrC l) = some (.arr (l.map .obj)) := by
  have hload1 : loads (renderArrC l) = some (.arr (l.map .obj)) :=
    loads_renderArrS [] [] (by simp) (by simp) l h
  have hload2 : loads (jdump (.arr (l.map .obj))) = some (.arr (l.map .obj)) := by
    rw [jdump_safe l h]
    refine loads_renderArrS [' '] [' '] ?_ ?_ l h <;>
      (intro c hc; simp only [List.mem_singleton] at hc; subst hc; rfl)
  refine ⟨?_, hload2, hload1⟩
  unfold optimize_json
  have hflat : (List.map cleanLine [renderArrC l]).flatten = cleanLine (renderArrC l) := by
    simp
  rw [hflat, cleanLine_renderArrC l h]
  unfold normalizeCleaned
  rw [truncate_renderArrC l h, hload1]
  simp only []
  rw [postprocess_safe l h]
  rfl

/-- C9 (witness): a two-field object list of the safe class round-trips
through the pipeline. -/
theorem strict_json_idempotent_on_safe_witness :
    safeList [[("id", JValue.str "x"), ("n", JValue.num 5)]] = true ∧
    (optimize_json [renderArrC [[("id", JValue.str "x"), ("n", JValue.num 5)]]] =
        .ok (jdump (.arr ([[("id", JValue.str "x"), ("n", JValue.num 5)]].map .obj))) ∧
      loads (jdump (.arr ([[("id", JValue.str "x"), ("n", JValue.num 5)]].map .obj))) =
        some (.arr ([[("id", JValue.str "x"), ("n", JValue.num 5)]].map .obj)) ∧
      loads (renderArrC [[("id", JValue.str "x"), ("n", JValue.num 5)]]) =
        some (.arr ([[("id", JValue.str "x"), ("n", JValue.num 5)]].map .obj))) :=
  ⟨by decide,
    strict_json_idempotent_on_safe [[("id", JValue.str "x"), ("n", JValue.num 5)]]
      (by decide)⟩

/-- C9 (counterexample): normalization is not idempotent on strict JSON in
general — the already-strict input `[{"a":true}]` decodes to a boolean
value, but the pipeline's bare-value quoter rewrites the unquoted token
`true` into the string `"true"`, so the output decodes to a different
value than the input. -/
theorem strict_json_not_idempotent :
    optimize_json ["[\x7b\"a\":true\x7d]".data] = .ok "[\x7b\"a\": \"true\"\x7d]".data ∧
    loads "[\x7b\"a\":true\x7d]".data = some (.arr [.obj [("a", .bool true)]]) ∧
    loads "[\x7b\"a\": \"true\"\x7d]".data = some (.arr [.obj [("a", .str "true")]]) :=
  ⟨rfl, rfl, rfl⟩
